import Mathlib

/-!
Verification of the Tic-Tac-Toe move-selection core of `Chatbot.py`
(board model and minimax search with alpha-beta pruning).

The board is a list of 9 cells, each `none` or a `Player` mark; the search
is embedded with an explicit fuel argument (the Python recursion is
well-founded on the number of empty cells, and every fact below is proved
for sufficient fuel).  Python's `-math.inf` / `math.inf` alpha-beta bounds
are modelled by the linear order `WithBot (WithTop ℤ)`.
-/

namespace TTT

/-- The two marks, `'X'` and `'O'` in the source. -/
inductive Player where
  | X : Player
  | O : Player
deriving DecidableEq, Repr, Fintype

open Player

/-- A board: 9 cells, each `'X'`, `'O'` or `None` (source line 78). -/
abbrev Board := List (Option Player)

/-- Function `opponent` from the source: the other mark. -/
def opponent : Player → Player
  | X => O
  | O => X

/-- Constant `WIN_LINES` from the source: rows, columns, diagonals. -/
def WIN_LINES : List (Nat × Nat × Nat) :=
  [(0, 1, 2), (3, 4, 5), (6, 7, 8),
   (0, 3, 6), (1, 4, 7), (2, 5, 8),
   (0, 4, 8), (2, 4, 6)]

/-- Cell lookup `board[i]` (all source accesses are in range on 9-cell boards;
out-of-range lookups default to an empty cell). -/
def cell (b : Board) (i : Nat) : Option Player := b.getD i none

/-- The scan of `check_winner`: for each line `(a, b, c)` in order, if
`board[a]` is a mark equal to `board[b]` and `board[c]`, return it. -/
def scanLines (b : Board) : List (Nat × Nat × Nat) → Option Player
  | [] => none
  | (i, j, k) :: rest =>
    match cell b i with
    | some w => if cell b j = some w ∧ cell b k = some w then some w else scanLines b rest
    | none => scanLines b rest

/-- Function `check_winner` from the source. -/
def check_winner (b : Board) : Option Player := scanLines b WIN_LINES

/-- Function `is_board_full` from the source: no empty cells left. -/
def is_board_full (b : Board) : Bool := b.all (fun c => c.isSome)

/-- Function `game_over` from the source: a winner exists or the board is full. -/
def game_over (b : Board) : Bool := (check_winner b).isSome || is_board_full b

/-- Helper for `available_moves`: indices (starting at `i`) of empty cells. -/
def availAux : Nat → Board → List Nat
  | _, [] => []
  | i, c :: rest =>
    match c with
    | none => i :: availAux (i + 1) rest
    | some _ => availAux (i + 1) rest

/-- Function `available_moves` from the source: indices of empty cells, ascending. -/
def available_moves (b : Board) : List Nat := availAux 0 b

/-- Number of empty cells (the measure of the Python recursion). -/
def countNone (b : Board) : Nat := (b.filter (fun c => c.isNone)).length

/-- Python floats `-math.inf`, integers, `math.inf`, as a linear order. -/
abbrev ExtInt := WithBot (WithTop ℤ)

/-- Embeds an integer score into `ExtInt`. -/
def ofInt (n : ℤ) : ExtInt := ((n : WithTop ℤ) : WithBot (WithTop ℤ))

/-- Conversion `int(x)` on a finite `ExtInt` (the source only converts finite values;
infinities map to a junk value). -/
def ExtInt.toInt (x : ExtInt) : ℤ := WithTop.untop' 0 (WithBot.unbot' 0 x)

/-- The maximizing loop body of `minimax` (source lines 156-168): iterate the
moves, place the mark, evaluate the child via `rec`, restore, keep the move on
a strict improvement, raise `alpha`, and break once `beta ≤ alpha`.  `rec` is
the recursive call at one less recursion depth. -/
def loopMax (rec : Board → Player → ExtInt → ExtInt → ℤ × Option Nat)
    (b : Board) (p : Player) :
    List Nat → ExtInt → Option Nat → ExtInt → ExtInt → ExtInt × Option Nat
  | [], maxEval, bestMv, _, _ => (maxEval, bestMv)
  | mv :: rest, maxEval, bestMv, alpha, beta =>
    let r : ℤ := (rec (b.set mv (some p)) (opponent p) alpha beta).1
    let maxEval' := if maxEval < ofInt r then ofInt r else maxEval
    let bestMv' := if maxEval < ofInt r then some mv else bestMv
    let alpha' := max alpha (ofInt r)
    if beta ≤ alpha' then (maxEval', bestMv')
    else loopMax rec b p rest maxEval' bestMv' alpha' beta

/-- The minimizing loop body of `minimax` (source lines 169-181), symmetric. -/
def loopMin (rec : Board → Player → ExtInt → ExtInt → ℤ × Option Nat)
    (b : Board) (p : Player) :
    List Nat → ExtInt → Option Nat → ExtInt → ExtInt → ExtInt × Option Nat
  | [], minEval, bestMv, _, _ => (minEval, bestMv)
  | mv :: rest, minEval, bestMv, alpha, beta =>
    let r : ℤ := (rec (b.set mv (some p)) (opponent p) alpha beta).1
    let minEval' := if ofInt r < minEval then ofInt r else minEval
    let bestMv' := if ofInt r < minEval then some mv else bestMv
    let beta' := min beta (ofInt r)
    if beta' ≤ alpha then (minEval', bestMv')
    else loopMin rec b p rest minEval' bestMv' alpha beta'

/-- Function `minimax` from the source, with an explicit fuel bounding the recursion
depth (any `fuel > countNone b` is enough, see `minimaxF_fuel_congr`):
terminal check first, then the maximizing or minimizing alpha-beta loop. -/
def minimaxF : Nat → Board → Player → Bool → ExtInt → ExtInt → ℤ × Option Nat
  | 0, _, _, _, _, _ => (0, none)
  | fuel + 1, b, p, maximizing, alpha, beta =>
    match check_winner b with
    | some Player.X => (1, none)
    | some Player.O => (-1, none)
    | none =>
      if is_board_full b then (0, none)
      else if maximizing then
        let res := loopMax (fun b' p' a' b'' => minimaxF fuel b' p' false a' b'')
          b p (available_moves b) ⊥ none alpha beta
        (res.1.toInt, res.2)
      else
        let res := loopMin (fun b' p' a' b'' => minimaxF fuel b' p' true a' b'')
          b p (available_moves b) ⊤ none alpha beta
        (res.1.toInt, res.2)

/-- The opening cells `[0, 2, 4, 6, 8]` of `best_move_for` (source line 188). -/
def useful_opens : List Nat := [0, 2, 4, 6, 8]

/-- Modelled from the spec: `random.choice` (Python standard library, not in
the repository) returns an element of the list chosen uniformly at random;
the randomness is modelled by a `seed` argument selecting the element. -/
def choice (l : List Nat) (seed : Nat) : Nat := l.getD (seed % l.length) 0

/-- Function `best_move_for` from the source: on an entirely empty board a random
useful opening, otherwise the move of the full-window alpha-beta search with
`'X'` maximizing and `'O'` minimizing.  The Python return annotation is
`int`, but at terminal boards the returned `move` is `None`, hence
`Option Nat`. -/
def best_move_for (seed : Nat) (b : Board) (ai : Player) : Option Nat :=
  if b.all (fun v => v.isNone) then some (choice useful_opens seed)
  else if ai = Player.X then (minimaxF (b.length + 1) b Player.X true ⊥ ⊤).2
  else (minimaxF (b.length + 1) b Player.O false ⊥ ⊤).2

/-- State-passing rendering of the maximizing loop: the source mutates the
board (`board[mv] = player`), recurses, and restores (`board[mv] = None`);
here the mutated board is threaded explicitly and returned, including on the
early pruning exit. -/
def loopMaxS (rec : Board → Player → ExtInt → ExtInt → (ℤ × Option Nat) × Board)
    (p : Player) :
    Board → List Nat → ExtInt → Option Nat → ExtInt → ExtInt →
      (ExtInt × Option Nat) × Board
  | b, [], maxEval, bestMv, _, _ => ((maxEval, bestMv), b)
  | b, mv :: rest, maxEval, bestMv, alpha, beta =>
    let placed := b.set mv (some p)
    let step := rec placed (opponent p) alpha beta
    let restored := step.2.set mv none
    let r : ℤ := step.1.1
    let maxEval' := if maxEval < ofInt r then ofInt r else maxEval
    let bestMv' := if maxEval < ofInt r then some mv else bestMv
    let alpha' := max alpha (ofInt r)
    if beta ≤ alpha' then ((maxEval', bestMv'), restored)
    else loopMaxS rec p restored rest maxEval' bestMv' alpha' beta

/-- State-passing rendering of the minimizing loop, symmetric. -/
def loopMinS (rec : Board → Player → ExtInt → ExtInt → (ℤ × Option Nat) × Board)
    (p : Player) :
    Board → List Nat → ExtInt → Option Nat → ExtInt → ExtInt →
      (ExtInt × Option Nat) × Board
  | b, [], minEval, bestMv, _, _ => ((minEval, bestMv), b)
  | b, mv :: rest, minEval, bestMv, alpha, beta =>
    let placed := b.set mv (some p)
    let step := rec placed (opponent p) alpha beta
    let restored := step.2.set mv none
    let r : ℤ := step.1.1
    let minEval' := if ofInt r < minEval then ofInt r else minEval
    let bestMv' := if ofInt r < minEval then some mv else bestMv
    let beta' := min beta (ofInt r)
    if beta' ≤ alpha then ((minEval', bestMv'), restored)
    else loopMinS rec p restored rest minEval' bestMv' alpha beta'

/-- State-passing rendering of `minimax`: same computation as `minimaxF`, but
the board being mutated during lookahead is threaded through and returned, so
that restoration (claimed by the spec) is a provable statement. -/
def minimaxS : Nat → Board → Player → Bool → ExtInt → ExtInt →
    (ℤ × Option Nat) × Board
  | 0, b, _, _, _, _ => ((0, none), b)
  | fuel + 1, b, p, maximizing, alpha, beta =>
    match check_winner b with
    | some Player.X => ((1, none), b)
    | some Player.O => ((-1, none), b)
    | none =>
      if is_board_full b then ((0, none), b)
      else if maximizing then
        let res := loopMaxS (fun b' p' a' b'' => minimaxS fuel b' p' false a' b'')
          p b (available_moves b) ⊥ none alpha beta
        ((res.1.1.toInt, res.1.2), res.2)
      else
        let res := loopMinS (fun b' p' a' b'' => minimaxS fuel b' p' true a' b'')
          p b (available_moves b) ⊤ none alpha beta
        ((res.1.1.toInt, res.1.2), res.2)

/-- Modelled from the spec: plain unpruned minimax ("exhaustive adversarial
search"), the score side only.  Terminal check first (+1 for a Mark-A line,
-1 for a Mark-B line, 0 for a full board), then the maximum (resp. minimum)
of the children's scores over the available moves. -/
def minimaxUnpruned : Nat → Board → Player → Bool → ExtInt
  | 0, _, _, _ => ofInt 0
  | fuel + 1, b, p, maximizing =>
    match check_winner b with
    | some Player.X => ofInt 1
    | some Player.O => ofInt (-1)
    | none =>
      if is_board_full b then ofInt 0
      else if maximizing then
        (available_moves b).foldl
          (fun acc m => max acc (minimaxUnpruned fuel (b.set m (some p)) (opponent p) false)) ⊥
      else
        (available_moves b).foldl
          (fun acc m => min acc (minimaxUnpruned fuel (b.set m (some p)) (opponent p) true)) ⊤

/-- The game-theoretic value of a board with `p` to move, `'X'` maximizing
(the polarity used by `best_move_for`).  Any fuel above `countNone b`
computes the same value; `b.length + 1` always suffices. -/
def gval (b : Board) (p : Player) : ExtInt :=
  minimaxUnpruned (b.length + 1) b p (p = Player.X)

/-- Spec-side selector for the maximizing tie-break: fold over (move, score)
pairs keeping the first strictly greatest score, no pruning involved. -/
def firstStrictMax : List (Nat × ℤ) → ExtInt → Option Nat → ExtInt × Option Nat
  | [], e, bm => (e, bm)
  | (m, r) :: rest, e, bm =>
    if e < ofInt r then firstStrictMax rest (ofInt r) (some m)
    else firstStrictMax rest e bm

/-- Spec-side selector for the minimizing tie-break, symmetric. -/
def firstStrictMin : List (Nat × ℤ) → ExtInt → Option Nat → ExtInt × Option Nat
  | [], e, bm => (e, bm)
  | (m, r) :: rest, e, bm =>
    if ofInt r < e then firstStrictMin rest (ofInt r) (some m)
    else firstStrictMin rest e bm

/-- The child scores the maximizing loop observes, in iteration order (each
child is searched with the running `alpha` of the loop). -/
def scoreSeqMax (rec : Board → Player → ExtInt → ExtInt → ℤ × Option Nat)
    (b : Board) (p : Player) (beta : ExtInt) :
    List Nat → ExtInt → List ℤ
  | [], _ => []
  | mv :: rest, alpha =>
    let r : ℤ := (rec (b.set mv (some p)) (opponent p) alpha beta).1
    r :: scoreSeqMax rec b p beta rest (max alpha (ofInt r))

/-- The child scores the minimizing loop observes, in iteration order. -/
def scoreSeqMin (rec : Board → Player → ExtInt → ExtInt → ℤ × Option Nat)
    (b : Board) (p : Player) (alpha : ExtInt) :
    List Nat → ExtInt → List ℤ
  | [], _ => []
  | mv :: rest, beta =>
    let r : ℤ := (rec (b.set mv (some p)) (opponent p) alpha beta).1
    r :: scoreSeqMin rec b p alpha rest (min beta (ofInt r))

/-- The empty board `new_board()`. -/
def new_board : Board := List.replicate 9 none

/-- Outcome of a finished game as a score: +1 a Mark-A win, -1 a Mark-B win,
0 otherwise (the scoring convention of `minimax`). -/
def outcomeScore (b : Board) : ℤ :=
  match check_winner b with
  | some Player.X => 1
  | some Player.O => -1
  | none => 0

/-- Alternating play driven by a strategy per mark (the orchestrator's loop,
abstracted): stop once `game_over`, else place the strategy's move and hand
the turn to the opponent. -/
def playFrom (strat : Player → Board → Nat) : Nat → Board → Player → Board
  | 0, b, _ => b
  | n + 1, b, p =>
    if game_over b then b
    else playFrom strat n (b.set (strat p b) (some p)) (opponent p)

/-- A strategy where mark `e` is played by the engine (`best_move_for`) and
the other mark by an arbitrary opponent strategy. -/
def engineStrat (seed : Nat) (e : Player) (opp : Player → Board → Nat)
    (p : Player) (b : Board) : Nat :=
  if p = e then (best_move_for seed b e).getD 0 else opp p b

/-- Both marks played by the engine. -/
def selfStrat (seed : Nat) (p : Player) (b : Board) : Nat :=
  (best_move_for seed b p).getD 0

/-! Characterization of `check_winner` and terminal behaviour of `minimax`. -/

/-- Spec-side reading of a completed line: all three cells of the line hold
the same non-empty mark. -/
def lineFilled (b : Board) (l : Nat × Nat × Nat) (w : Player) : Prop :=
  cell b l.1 = some w ∧ cell b l.2.1 = some w ∧ cell b l.2.2 = some w

instance (b : Board) (l : Nat × Nat × Nat) (w : Player) :
    Decidable (lineFilled b l w) := by
  unfold lineFilled; infer_instance

/-- Some line of the board is completed by mark `w`. -/
def hasWinner (b : Board) (w : Player) : Prop :=
  ∃ l ∈ WIN_LINES, lineFilled b l w

/-! The Knuth-Moore correctness invariant for fail-soft alpha-beta: below
window the result upper-bounds the true value from above, above window it
lower-bounds it, inside the window it is exact. -/

/-- The alpha-beta result `r` of a node with true minimax value `v`,
searched in window `(a, β)`. -/
def KMrel (r : ℤ) (v : ExtInt) (a β : ExtInt) : Prop :=
  (ofInt r ≤ a → v ≤ ofInt r) ∧ (β ≤ ofInt r → ofInt r ≤ v) ∧
    (a < ofInt r → ofInt r < β → ofInt r = v)

/-! Board reindexing along a symmetry of the grid: the game value is
invariant under any involution of the cells that maps win lines to win lines
(up to the order of the three cells within a line). -/

/-- The image of a win line under a cell permutation. -/
def mapLine (σ : Nat → Nat) (l : Nat × Nat × Nat) : Nat × Nat × Nat :=
  (σ l.1, σ l.2.1, σ l.2.2)

/-- Two lines containing the same three cells in some order. -/
def tripleEquiv (l1 l2 : Nat × Nat × Nat) : Prop :=
  l2 = (l1.1, l1.2.1, l1.2.2) ∨ l2 = (l1.1, l1.2.2, l1.2.1) ∨
  l2 = (l1.2.1, l1.1, l1.2.2) ∨ l2 = (l1.2.1, l1.2.2, l1.1) ∨
  l2 = (l1.2.2, l1.1, l1.2.1) ∨ l2 = (l1.2.2, l1.2.1, l1.1)

instance (l1 l2 : Nat × Nat × Nat) : Decidable (tripleEquiv l1 l2) := by
  unfold tripleEquiv; infer_instance

/-- Reindexing of a board along a cell permutation: cell `i` of the new board
is cell `σ i` of the old one. -/
def reindex (σ : Nat → Nat) (b : Board) : Board :=
  (List.range 9).map (fun i => cell b (σ i))

/-- Hypotheses making `σ` a symmetry of the grid. -/
def GridSym (σ : Nat → Nat) : Prop :=
  (∀ i, i < 9 → σ i < 9) ∧ (∀ i, i < 9 → σ (σ i) = i) ∧
  (∀ l ∈ WIN_LINES, ∃ l2 ∈ WIN_LINES, tripleEquiv (mapLine σ l) l2)

/-! Mark swap: exchanging the two marks on the board negates the value and
flips the polarity. -/

/-- The board with the two marks exchanged. -/
def swapBoard (b : Board) : Board := b.map (Option.map opponent)

/-- Order-reversing negation of `ExtInt` (infinities included). -/
def eneg (x : ExtInt) : ExtInt :=
  WithBot.recBotCoe ⊤ (fun y => WithTop.recTopCoe ⊥ (fun n => ofInt (-n)) y) x

/-! Concrete grid symmetries and transfer of opening values. -/

/-- Reflection across the vertical axis (`0 <-> 2`, `3 <-> 5`, `6 <-> 8`). -/
def sigH : Nat → Nat := fun i => [2, 1, 0, 5, 4, 3, 8, 7, 6].getD i i

/-- Reflection across the horizontal axis (`0 <-> 6`, `1 <-> 7`, `2 <-> 8`). -/
def sigV : Nat → Nat := fun i => [6, 7, 8, 3, 4, 5, 0, 1, 2].getD i i

/-- Reflection across the main diagonal (`1 <-> 3`, `2 <-> 6`, `5 <-> 7`). -/
def sigD : Nat → Nat := fun i => [0, 3, 6, 1, 4, 7, 2, 5, 8].getD i i

instance (σ : Nat → Nat) : Decidable (GridSym σ) := by
  unfold GridSym
  infer_instance

def oppHead (q : Player) (b : Board) : Nat := (available_moves b).headD 0

/-! Basic lemmas on cells, `available_moves` and `countNone`. -/

lemma cell_set_self : ∀ (b : Board) (m : Nat), m < b.length →
    ∀ x, cell (b.set m x) m = x := by
  intro b
  induction b with
  | nil => intro m h; simp at h
  | cons c rest ih =>
    intro m h x
    cases m with
    | zero => simp [cell]
    | succ m => simpa [cell, List.getD] using ih m (by simpa using h) x

lemma cell_set_ne : ∀ (b : Board) (m k : Nat), m ≠ k →
    ∀ x, cell (b.set m x) k = cell b k := by
  intro b
  induction b with
  | nil => intro m k h x; simp [cell]
  | cons c rest ih =>
    intro m k h x
    cases m with
    | zero =>
      cases k with
      | zero => exact absurd rfl h
      | succ k => simp [cell, List.getD]
    | succ m =>
      cases k with
      | zero => simp [cell, List.getD]
      | succ k =>
        simpa [cell, List.getD] using ih m k (by omega) x

lemma set_cell_eq_self : ∀ (b : Board) (m : Nat), cell b m = none →
    b.set m none = b := by
  intro b
  induction b with
  | nil => intro m _; simp
  | cons c rest ih =>
    intro m h
    cases m with
    | zero => simp [cell] at h; simp [h]
    | succ m => simpa using ih m (by simpa [cell, List.getD] using h)

lemma mem_availAux : ∀ (b : Board) (i m : Nat),
    m ∈ availAux i b ↔ i ≤ m ∧ m - i < b.length ∧ cell b (m - i) = none := by
  intro b
  induction b with
  | nil => intro i m; simp [availAux]
  | cons c rest ih =>
    intro i m
    cases c with
    | none =>
      simp only [availAux, List.mem_cons, ih]
      constructor
      · rintro (rfl | ⟨h1, h2, h3⟩)
        · simp [cell]
        · refine ⟨by omega, by simp; omega, ?_⟩
          have : m - i = (m - (i + 1)) + 1 := by omega
          rw [this]
          simpa [cell, List.getD] using h3
      · rintro ⟨h1, h2, h3⟩
        rcases Nat.eq_or_lt_of_le h1 with rfl | hlt
        · exact Or.inl rfl
        · refine Or.inr ⟨by omega, by simp at h2 ⊢; omega, ?_⟩
          have : m - i = (m - (i + 1)) + 1 := by omega
          rw [this] at h3
          simpa [cell, List.getD] using h3
    | some q =>
      simp only [availAux, ih]
      constructor
      · rintro ⟨h1, h2, h3⟩
        refine ⟨by omega, by simp; omega, ?_⟩
        have : m - i = (m - (i + 1)) + 1 := by omega
        rw [this]
        simpa [cell, List.getD] using h3
      · rintro ⟨h1, h2, h3⟩
        have hne : i ≠ m := by
          rintro rfl
          simp [cell] at h3
        refine ⟨by omega, by simp at h2 ⊢; omega, ?_⟩
        have : m - i = (m - (i + 1)) + 1 := by omega
        rw [this] at h3
        simpa [cell, List.getD] using h3

lemma mem_available_moves {b : Board} {m : Nat} :
    m ∈ available_moves b ↔ m < b.length ∧ cell b m = none := by
  simpa [available_moves] using mem_availAux b 0 m

lemma availAux_ge : ∀ (b : Board) (i m : Nat), m ∈ availAux i b → i ≤ m := by
  intro b i m h
  exact ((mem_availAux b i m).1 h).1

lemma availAux_pairwise : ∀ (b : Board) (i : Nat),
    List.Pairwise (· < ·) (availAux i b) := by
  intro b
  induction b with
  | nil => intro i; simp [availAux]
  | cons c rest ih =>
    intro i
    cases c with
    | none =>
      simp only [availAux, List.pairwise_cons]
      exact ⟨fun m hm => Nat.lt_of_lt_of_le (Nat.lt_succ_self i) (availAux_ge rest (i+1) m hm), ih (i+1)⟩
    | some q => simpa [availAux] using ih (i + 1)

lemma available_moves_sorted (b : Board) :
    List.Pairwise (· < ·) (available_moves b) := availAux_pairwise b 0

lemma availAux_length : ∀ (b : Board) (i : Nat),
    (availAux i b).length = countNone b := by
  intro b
  induction b with
  | nil => intro i; simp [availAux, countNone]
  | cons c rest ih =>
    intro i
    cases c with
    | none => simp [availAux, countNone, List.filter]; simpa [countNone] using ih (i+1)
    | some q => simp [availAux, countNone, List.filter]; simpa [countNone] using ih (i+1)

lemma available_moves_length (b : Board) :
    (available_moves b).length = countNone b := availAux_length b 0

lemma countNone_le_length (b : Board) : countNone b ≤ b.length :=
  List.length_filter_le _ b

lemma countNone_set_some : ∀ (b : Board) (m : Nat) (p : Player),
    m < b.length → cell b m = none →
    countNone (b.set m (some p)) + 1 = countNone b := by
  intro b
  induction b with
  | nil => intro m p h; simp at h
  | cons c rest ih =>
    intro m p h hc
    cases m with
    | zero =>
      simp [cell] at hc
      subst hc
      simp [countNone, List.filter]
    | succ m =>
      have := ih m p (by simpa using h) (by simpa [cell, List.getD] using hc)
      cases c with
      | none => simpa [countNone, List.filter] using this
      | some q => simpa [countNone, List.filter] using this

lemma is_board_full_iff_countNone (b : Board) :
    is_board_full b = true ↔ countNone b = 0 := by
  induction b with
  | nil => simp [is_board_full, countNone]
  | cons c rest ih =>
    cases c with
    | none => simp [is_board_full, countNone, List.filter]
    | some q =>
      simp only [is_board_full, countNone, List.filter] at ih ⊢
      simpa using ih

lemma available_moves_eq_nil_iff (b : Board) :
    available_moves b = [] ↔ is_board_full b = true := by
  rw [is_board_full_iff_countNone, ← available_moves_length b,
    List.length_eq_zero]

lemma scanLines_eq_find? (b : Board) : ∀ L : List (Nat × Nat × Nat),
    scanLines b L =
      (L.find? (fun l => decide (∃ w, lineFilled b l w))).bind
        (fun l => cell b l.1) := by
  intro L
  induction L with
  | nil => simp [scanLines]
  | cons l rest ih =>
    obtain ⟨i, j, k⟩ := l
    by_cases hw : ∃ w, lineFilled b (i, j, k) w
    · obtain ⟨w, h1, h2, h3⟩ := hw
      simp only [lineFilled] at h1 h2 h3
      simp only [scanLines, h1, h2, h3, and_self, if_true, List.find?_cons]
      have hd : decide (∃ w, lineFilled b (i, j, k) w) = true := by
        simp only [decide_eq_true_eq]
        exact ⟨w, h1, h2, h3⟩
      rw [hd]
      simp [h1]
    · have hp : decide (∃ w, lineFilled b (i, j, k) w) = false := by
        simpa using hw
      rw [List.find?_cons, hp]
      cases hcell : cell b i with
      | none => simpa [scanLines, hcell] using ih
      | some w =>
        have hcond : ¬(cell b j = some w ∧ cell b k = some w) := by
          intro ⟨h2, h3⟩
          exact hw ⟨w, hcell, h2, h3⟩
        simpa [scanLines, hcell, hcond] using ih

lemma check_winner_eq_none_iff (b : Board) :
    check_winner b = none ↔ ∀ w, ¬hasWinner b w := by
  rw [check_winner, scanLines_eq_find? b WIN_LINES]
  constructor
  · intro h w ⟨l, hl, hf⟩
    cases hfind : WIN_LINES.find? (fun l => decide (∃ w, lineFilled b l w)) with
    | none =>
      rw [List.find?_eq_none] at hfind
      have := hfind l hl
      simp only [decide_eq_true_eq, not_exists] at this
      exact this w hf
    | some l' =>
      rw [hfind] at h
      have := List.find?_some hfind
      simp only [decide_eq_true_eq] at this
      obtain ⟨w', hw'⟩ := this
      simp [Option.bind, hw'.1] at h
  · intro h
    have : WIN_LINES.find? (fun l => decide (∃ w, lineFilled b l w)) = none := by
      rw [List.find?_eq_none]
      intro l hl
      simp only [decide_eq_true_eq, not_exists] at h ⊢
      intro w hw
      exact h w ⟨l, hl, hw⟩
    simp [this]

lemma check_winner_some_hasWinner {b : Board} {w : Player}
    (h : check_winner b = some w) : hasWinner b w := by
  rw [check_winner, scanLines_eq_find? b WIN_LINES] at h
  cases hfind : WIN_LINES.find? (fun l => decide (∃ w, lineFilled b l w)) with
  | none => simp [hfind] at h
  | some l =>
    rw [hfind] at h
    have hpred := List.find?_some hfind
    have hmem := List.mem_of_find?_eq_some hfind
    simp only [decide_eq_true_eq] at hpred
    obtain ⟨w', hw'⟩ := hpred
    simp only [Option.bind, hw'.1] at h
    cases h
    exact ⟨l, hmem, hw'⟩

/-! Unfolding lemmas for `minimaxF`. -/

lemma minimaxF_succ_winX {b : Board} (fuel : Nat) (p : Player) (maxi : Bool)
    (alpha beta : ExtInt) (h : check_winner b = some Player.X) :
    minimaxF (fuel + 1) b p maxi alpha beta = (1, none) := by
  simp [minimaxF, h]

lemma minimaxF_succ_winO {b : Board} (fuel : Nat) (p : Player) (maxi : Bool)
    (alpha beta : ExtInt) (h : check_winner b = some Player.O) :
    minimaxF (fuel + 1) b p maxi alpha beta = (-1, none) := by
  simp [minimaxF, h]

lemma minimaxF_succ_full {b : Board} (fuel : Nat) (p : Player) (maxi : Bool)
    (alpha beta : ExtInt) (h : check_winner b = none)
    (hf : is_board_full b = true) :
    minimaxF (fuel + 1) b p maxi alpha beta = (0, none) := by
  simp [minimaxF, h, hf]

lemma minimaxF_succ_max {b : Board} (fuel : Nat) (p : Player)
    (alpha beta : ExtInt) (h : check_winner b = none)
    (hf : is_board_full b = false) :
    minimaxF (fuel + 1) b p true alpha beta =
      ((loopMax (fun b' p' a' b'' => minimaxF fuel b' p' false a' b'')
          b p (available_moves b) ⊥ none alpha beta).1.toInt,
        (loopMax (fun b' p' a' b'' => minimaxF fuel b' p' false a' b'')
          b p (available_moves b) ⊥ none alpha beta).2) := by
  simp [minimaxF, h, hf]

lemma minimaxF_succ_min {b : Board} (fuel : Nat) (p : Player)
    (alpha beta : ExtInt) (h : check_winner b = none)
    (hf : is_board_full b = false) :
    minimaxF (fuel + 1) b p false alpha beta =
      ((loopMin (fun b' p' a' b'' => minimaxF fuel b' p' true a' b'')
          b p (available_moves b) ⊤ none alpha beta).1.toInt,
        (loopMin (fun b' p' a' b'' => minimaxF fuel b' p' true a' b'')
          b p (available_moves b) ⊤ none alpha beta).2) := by
  simp [minimaxF, h, hf]

/-! The state-passing search restores the board and computes the same
result as the pure one. -/

lemma loopMaxS_eq (recS : Board → Player → ExtInt → ExtInt → (ℤ × Option Nat) × Board)
    (rec : Board → Player → ExtInt → ExtInt → ℤ × Option Nat)
    (hrec : ∀ b' p' a' β', recS b' p' a' β' = (rec b' p' a' β', b')) (p : Player) :
    ∀ (ms : List Nat) (b : Board), (∀ m ∈ ms, cell b m = none) →
    ∀ (e : ExtInt) (bm : Option Nat) (a β : ExtInt),
      loopMaxS recS p b ms e bm a β = (loopMax rec b p ms e bm a β, b) := by
  intro ms
  induction ms with
  | nil => intro b hms e bm a β; simp [loopMaxS, loopMax]
  | cons mv rest ih =>
    intro b hms e bm a β
    have hcell : cell b mv = none := hms mv (List.mem_cons_self mv rest)
    have hrestored : (b.set mv (some p)).set mv none = b := by
      rw [List.set_set]
      exact set_cell_eq_self b mv hcell
    simp only [loopMaxS, loopMax, hrec, hrestored]
    by_cases hbr : β ≤ max a (ofInt (rec (b.set mv (some p)) (opponent p) a β).1)
    · simp [hbr]
    · simp only [hbr, if_false]
      exact ih b (fun m hm => hms m (List.mem_cons_of_mem mv hm)) _ _ _ _

lemma loopMinS_eq (recS : Board → Player → ExtInt → ExtInt → (ℤ × Option Nat) × Board)
    (rec : Board → Player → ExtInt → ExtInt → ℤ × Option Nat)
    (hrec : ∀ b' p' a' β', recS b' p' a' β' = (rec b' p' a' β', b')) (p : Player) :
    ∀ (ms : List Nat) (b : Board), (∀ m ∈ ms, cell b m = none) →
    ∀ (e : ExtInt) (bm : Option Nat) (a β : ExtInt),
      loopMinS recS p b ms e bm a β = (loopMin rec b p ms e bm a β, b) := by
  intro ms
  induction ms with
  | nil => intro b hms e bm a β; simp [loopMinS, loopMin]
  | cons mv rest ih =>
    intro b hms e bm a β
    have hcell : cell b mv = none := hms mv (List.mem_cons_self mv rest)
    have hrestored : (b.set mv (some p)).set mv none = b := by
      rw [List.set_set]
      exact set_cell_eq_self b mv hcell
    simp only [loopMinS, loopMin, hrec, hrestored]
    by_cases hbr : min β (ofInt (rec (b.set mv (some p)) (opponent p) a β).1) ≤ a
    · simp [hbr]
    · simp only [hbr, if_false]
      exact ih b (fun m hm => hms m (List.mem_cons_of_mem mv hm)) _ _ _ _

lemma minimaxS_eq : ∀ (fuel : Nat) (b : Board) (p : Player) (maxi : Bool)
    (alpha beta : ExtInt),
    minimaxS fuel b p maxi alpha beta = (minimaxF fuel b p maxi alpha beta, b) := by
  intro fuel
  induction fuel with
  | zero => intro b p maxi alpha beta; simp [minimaxS, minimaxF]
  | succ fuel ih =>
    intro b p maxi alpha beta
    have hmoves : ∀ m ∈ available_moves b, cell b m = none :=
      fun m hm => (mem_available_moves.1 hm).2
    cases hw : check_winner b with
    | some w =>
      cases w with
      | X => simp [minimaxS, minimaxF, hw]
      | O => simp [minimaxS, minimaxF, hw]
    | none =>
      cases hf : is_board_full b with
      | true => simp [minimaxS, minimaxF, hw, hf]
      | false =>
        cases maxi with
        | true =>
          have hloop := loopMaxS_eq (fun b' p' a' b'' => minimaxS fuel b' p' false a' b'')
            (fun b' p' a' b'' => minimaxF fuel b' p' false a' b'')
            (fun b' p' a' β' => ih b' p' false a' β') p (available_moves b) b hmoves
            ⊥ none alpha beta
          simp [minimaxS, minimaxF, hw, hf, hloop]
        | false =>
          have hloop := loopMinS_eq (fun b' p' a' b'' => minimaxS fuel b' p' true a' b'')
            (fun b' p' a' b'' => minimaxF fuel b' p' true a' b'')
            (fun b' p' a' β' => ih b' p' true a' β') p (available_moves b) b hmoves
            ⊤ none alpha beta
          simp [minimaxS, minimaxF, hw, hf, hloop]

/-! Fuel congruence: any fuel above `countNone b` computes the same search. -/

lemma countNone_child {b : Board} {m : Nat} (p : Player)
    (hm : m ∈ available_moves b) :
    countNone (b.set m (some p)) + 1 = countNone b := by
  obtain ⟨hlt, hc⟩ := mem_available_moves.1 hm
  exact countNone_set_some b m p hlt hc

lemma countNone_pos_of_not_full {b : Board} (hf : is_board_full b = false) :
    0 < countNone b := by
  rcases Nat.eq_zero_or_pos (countNone b) with h | h
  · rw [← is_board_full_iff_countNone] at h
    rw [h] at hf
    cases hf
  · exact h

lemma loopMax_congr (rec1 rec2 : Board → Player → ExtInt → ExtInt → ℤ × Option Nat)
    {b : Board} {p : Player} :
    ∀ (ms : List Nat),
      (∀ m ∈ ms, ∀ a β, rec1 (b.set m (some p)) (opponent p) a β =
        rec2 (b.set m (some p)) (opponent p) a β) →
    ∀ (e : ExtInt) (bm : Option Nat) (a β : ExtInt),
      loopMax rec1 b p ms e bm a β = loopMax rec2 b p ms e bm a β := by
  intro ms
  induction ms with
  | nil => intro _ e bm a β; simp [loopMax]
  | cons mv rest ih =>
    intro h e bm a β
    have hhd := h mv (List.mem_cons_self mv rest) a β
    simp only [loopMax, hhd]
    by_cases hbr : β ≤ max a (ofInt (rec2 (b.set mv (some p)) (opponent p) a β).1)
    · simp [hbr]
    · simp only [hbr, if_false]
      exact ih (fun m hm => h m (List.mem_cons_of_mem mv hm)) _ _ _ _

lemma loopMin_congr (rec1 rec2 : Board → Player → ExtInt → ExtInt → ℤ × Option Nat)
    {b : Board} {p : Player} :
    ∀ (ms : List Nat),
      (∀ m ∈ ms, ∀ a β, rec1 (b.set m (some p)) (opponent p) a β =
        rec2 (b.set m (some p)) (opponent p) a β) →
    ∀ (e : ExtInt) (bm : Option Nat) (a β : ExtInt),
      loopMin rec1 b p ms e bm a β = loopMin rec2 b p ms e bm a β := by
  intro ms
  induction ms with
  | nil => intro _ e bm a β; simp [loopMin]
  | cons mv rest ih =>
    intro h e bm a β
    have hhd := h mv (List.mem_cons_self mv rest) a β
    simp only [loopMin, hhd]
    by_cases hbr : min β (ofInt (rec2 (b.set mv (some p)) (opponent p) a β).1) ≤ a
    · simp [hbr]
    · simp only [hbr, if_false]
      exact ih (fun m hm => h m (List.mem_cons_of_mem mv hm)) _ _ _ _

lemma minimaxF_fuel_congr : ∀ (fuel fuel' : Nat) (b : Board) (p : Player)
    (maxi : Bool) (alpha beta : ExtInt),
    countNone b < fuel → countNone b < fuel' →
    minimaxF fuel b p maxi alpha beta = minimaxF fuel' b p maxi alpha beta := by
  intro fuel
  induction fuel with
  | zero => intro fuel' b p maxi alpha beta h; omega
  | succ n ih =>
    intro fuel' b p maxi alpha beta h h'
    cases fuel' with
    | zero => omega
    | succ n' =>
      cases hw : check_winner b with
      | some w =>
        cases w with
        | X => rw [minimaxF_succ_winX n p maxi alpha beta hw,
            minimaxF_succ_winX n' p maxi alpha beta hw]
        | O => rw [minimaxF_succ_winO n p maxi alpha beta hw,
            minimaxF_succ_winO n' p maxi alpha beta hw]
      | none =>
        cases hf : is_board_full b with
        | true => rw [minimaxF_succ_full n p maxi alpha beta hw hf,
            minimaxF_succ_full n' p maxi alpha beta hw hf]
        | false =>
          have hpos := countNone_pos_of_not_full hf
          have hrec : ∀ mm, ∀ m ∈ available_moves b, ∀ a β,
              minimaxF n (b.set m (some p)) (opponent p) mm a β =
              minimaxF n' (b.set m (some p)) (opponent p) mm a β := by
            intro mm m hm a β
            have hchild := countNone_child p hm
            exact ih n' _ _ _ _ _ (by omega) (by omega)
          cases maxi with
          | true =>
            rw [minimaxF_succ_max n p alpha beta hw hf,
              minimaxF_succ_max n' p alpha beta hw hf]
            rw [loopMax_congr (fun b' p' a' b'' => minimaxF n b' p' false a' b'')
              (fun b' p' a' b'' => minimaxF n' b' p' false a' b'') (available_moves b)
              (fun m hm a β => hrec false m hm a β) ⊥ none alpha beta]
          | false =>
            rw [minimaxF_succ_min n p alpha beta hw hf,
              minimaxF_succ_min n' p alpha beta hw hf]
            rw [loopMin_congr (fun b' p' a' b'' => minimaxF n b' p' true a' b'')
              (fun b' p' a' b'' => minimaxF n' b' p' true a' b'') (available_moves b)
              (fun m hm a β => hrec true m hm a β) ⊤ none alpha beta]

/-! Order and fold helpers on `ExtInt`. -/

lemma bot_lt_ofInt (n : ℤ) : (⊥ : ExtInt) < ofInt n := by
  exact WithBot.bot_lt_coe _

lemma ofInt_lt_top (n : ℤ) : ofInt n < (⊤ : ExtInt) := by
  rw [ofInt, show (⊤ : ExtInt) = ((⊤ : WithTop ℤ) : WithBot (WithTop ℤ)) from rfl,
    WithBot.coe_lt_coe]
  exact WithTop.coe_lt_top n

lemma ofInt_le_ofInt {m n : ℤ} : ofInt m ≤ ofInt n ↔ m ≤ n := by
  rw [ofInt, ofInt, WithBot.coe_le_coe, WithTop.coe_le_coe]

lemma ofInt_lt_ofInt {m n : ℤ} : ofInt m < ofInt n ↔ m < n := by
  rw [ofInt, ofInt, WithBot.coe_lt_coe, WithTop.coe_lt_coe]

lemma toInt_ofInt (n : ℤ) : (ofInt n).toInt = n := rfl

lemma exists_ofInt_of_bounds {x : ExtInt} (h1 : ⊥ < x) (h2 : x < ⊤) :
    ∃ k : ℤ, x = ofInt k := by
  cases x with
  | none => exact absurd h1 (lt_irrefl _)
  | some y =>
    cases y with
    | top =>
      exact absurd (WithBot.coe_lt_coe.1 h2) (lt_irrefl _)
    | coe k => exact ⟨k, rfl⟩

lemma ite_lt_max {α : Type} [LinearOrder α] (x y : α) :
    (if x < y then y else x) = max x y := by
  rcases lt_or_le x y with h | h
  · simp [h, max_eq_right h.le]
  · simp [not_lt.2 h, max_eq_left h]

lemma ite_lt_min {α : Type} [LinearOrder α] (x y : α) :
    (if y < x then y else x) = min x y := by
  rcases lt_or_le y x with h | h
  · simp [h, min_eq_right h.le]
  · simp [not_lt.2 h, min_eq_left h]

lemma le_foldl_max {α : Type} [LinearOrder α] (f : Nat → α) :
    ∀ (l : List Nat) (e : α), e ≤ l.foldl (fun acc m => max acc (f m)) e := by
  intro l
  induction l with
  | nil => intro e; simp
  | cons x r ih => intro e; exact le_trans (le_max_left e (f x)) (ih (max e (f x)))

lemma foldl_min_le {α : Type} [LinearOrder α] (f : Nat → α) :
    ∀ (l : List Nat) (e : α), l.foldl (fun acc m => min acc (f m)) e ≤ e := by
  intro l
  induction l with
  | nil => intro e; simp
  | cons x r ih => intro e; exact le_trans (ih (min e (f x))) (min_le_left e (f x))

lemma foldl_max_mono {α : Type} [LinearOrder α] (f : Nat → α) :
    ∀ (l : List Nat) {e e' : α}, e ≤ e' →
      l.foldl (fun acc m => max acc (f m)) e ≤ l.foldl (fun acc m => max acc (f m)) e' := by
  intro l
  induction l with
  | nil => intro e e' h; simpa using h
  | cons x r ih => intro e e' h; exact ih (max_le_max h (le_refl (f x)))

lemma foldl_min_mono {α : Type} [LinearOrder α] (f : Nat → α) :
    ∀ (l : List Nat) {e e' : α}, e ≤ e' →
      l.foldl (fun acc m => min acc (f m)) e ≤ l.foldl (fun acc m => min acc (f m)) e' := by
  intro l
  induction l with
  | nil => intro e e' h; simpa using h
  | cons x r ih => intro e e' h; exact ih (min_le_min h (le_refl (f x)))

lemma foldl_max_decompose {α : Type} [LinearOrder α] (f : Nat → α) :
    ∀ (l : List Nat) (e c : α),
      l.foldl (fun acc m => max acc (f m)) (max e c) =
        max e (l.foldl (fun acc m => max acc (f m)) c) := by
  intro l
  induction l with
  | nil => intro e c; simp
  | cons x r ih =>
    intro e c
    simp only [List.foldl_cons]
    rw [max_assoc, ih]

lemma foldl_min_decompose {α : Type} [LinearOrder α] (f : Nat → α) :
    ∀ (l : List Nat) (e c : α),
      l.foldl (fun acc m => min acc (f m)) (min e c) =
        min e (l.foldl (fun acc m => min acc (f m)) c) := by
  intro l
  induction l with
  | nil => intro e c; simp
  | cons x r ih =>
    intro e c
    simp only [List.foldl_cons]
    rw [min_assoc, ih]

lemma loopMax_ge (rec : Board → Player → ExtInt → ExtInt → ℤ × Option Nat)
    (b : Board) (p : Player) :
    ∀ (ms : List Nat) (e : ExtInt) (bm : Option Nat) (a β : ExtInt),
      e ≤ (loopMax rec b p ms e bm a β).1 := by
  intro ms
  induction ms with
  | nil => intro e bm a β; simp [loopMax]
  | cons mv rest ih =>
    intro e bm a β
    simp only [loopMax, ite_lt_max]
    by_cases hbr : β ≤ max a (ofInt ((rec (b.set mv (some p)) (opponent p) a β).1))
    · simp only [hbr, if_true]
      exact le_max_left e _
    · simp only [hbr, if_false]
      exact le_trans (le_max_left e _) (ih _ _ _ _)

lemma loopMin_le (rec : Board → Player → ExtInt → ExtInt → ℤ × Option Nat)
    (b : Board) (p : Player) :
    ∀ (ms : List Nat) (e : ExtInt) (bm : Option Nat) (a β : ExtInt),
      (loopMin rec b p ms e bm a β).1 ≤ e := by
  intro ms
  induction ms with
  | nil => intro e bm a β; simp [loopMin]
  | cons mv rest ih =>
    intro e bm a β
    simp only [loopMin, ite_lt_min]
    by_cases hbr : min β (ofInt ((rec (b.set mv (some p)) (opponent p) a β).1)) ≤ a
    · simp only [hbr, if_true]
      exact min_le_left e _
    · simp only [hbr, if_false]
      exact le_trans (ih _ _ _ _) (min_le_left e _)

lemma foldl_max_from_init {α : Type} [LinearOrder α] [OrderBot α] (f : Nat → α)
    (l : List Nat) (c : α) :
    l.foldl (fun acc m => max acc (f m)) c =
      max c (l.foldl (fun acc m => max acc (f m)) ⊥) := by
  have h := foldl_max_decompose f l c ⊥
  rwa [max_eq_left bot_le] at h

lemma foldl_min_from_init {α : Type} [LinearOrder α] [OrderTop α] (f : Nat → α)
    (l : List Nat) (c : α) :
    l.foldl (fun acc m => min acc (f m)) c =
      min c (l.foldl (fun acc m => min acc (f m)) ⊤) := by
  have h := foldl_min_decompose f l c ⊤
  rwa [min_eq_left le_top] at h

lemma loopMax_km (rec : Board → Player → ExtInt → ExtInt → ℤ × Option Nat)
    (val : Nat → ExtInt) (b : Board) (p : Player) :
    ∀ (ms : List Nat),
      (∀ m ∈ ms, ∀ a' β', a' < β' →
        KMrel (rec (b.set m (some p)) (opponent p) a' β').1 (val m) a' β') →
    ∀ (e : ExtInt) (bm : Option Nat) (a β : ExtInt), a < β → e ≤ a →
    ∀ R W, R = (loopMax rec b p ms e bm a β).1 →
      W = ms.foldl (fun acc m => max acc (val m)) e →
      (R ≤ a → W ≤ R) ∧ (β ≤ R → R ≤ W) ∧ (a < R → R < β → R = W) := by
  intro ms
  induction ms with
  | nil =>
    intro _ e bm a β _ _ R W hR hW
    simp only [loopMax, List.foldl_nil] at hR hW
    subst hR; subst hW
    exact ⟨fun _ => le_refl _, fun _ => le_refl _, fun _ _ => rfl⟩
  | cons mv rest ih =>
    intro hrec e bm a β haβ hea R W hR hW
    have hmem : mv ∈ mv :: rest := List.mem_cons_self mv rest
    obtain ⟨k1, k2, k3⟩ := hrec mv hmem a β haβ
    simp only [loopMax, ite_lt_max] at hR
    simp only [List.foldl_cons] at hW
    set r : ℤ := (rec (b.set mv (some p)) (opponent p) a β).1 with hr
    by_cases hbr : β ≤ max a (ofInt r)
    · -- pruning break after this move
      simp only [hbr, if_true] at hR
      have hβr : β ≤ ofInt r := by
        rcases le_max_iff.1 hbr with h | h
        · exact absurd h (not_le.2 haβ)
        · exact h
      have hrv : ofInt r ≤ val mv := k2 hβr
      have hrR : ofInt r ≤ R := hR ▸ le_max_right e (ofInt r)
      refine ⟨?_, ?_, ?_⟩
      · intro hRa
        exact absurd (lt_of_lt_of_le haβ (le_trans hβr (le_trans hrR hRa)))
          (lt_irrefl a)
      · intro _
        rw [hR, hW]
        exact le_trans (max_le_max (le_refl e) hrv)
          (le_foldl_max _ rest (max e (val mv)))
      · intro _ hRβ
        exact absurd (lt_of_le_of_lt (le_trans hβr hrR) hRβ) (lt_irrefl β)
    · -- no break: continue with raised alpha
      simp only [hbr, if_false] at hR
      have ha'β : max a (ofInt r) < β := not_le.1 hbr
      have he'a' : max e (ofInt r) ≤ max a (ofInt r) :=
        max_le_max hea (le_refl (ofInt r))
      have hrec' : ∀ m ∈ rest, ∀ a' β', a' < β' →
          KMrel (rec (b.set m (some p)) (opponent p) a' β').1 (val m) a' β' :=
        fun m hm => hrec m (List.mem_cons_of_mem mv hm)
      obtain ⟨c1, c2, c3⟩ := ih hrec' (max e (ofInt r))
        (if e < ofInt r then some mv else bm) (max a (ofInt r)) β ha'β he'a'
        R (rest.foldl (fun acc m => max acc (val m)) (max e (ofInt r))) hR rfl
      have hRge : max e (ofInt r) ≤ R := hR ▸ loopMax_ge rec b p rest _ _ _ _
      set S : ExtInt := rest.foldl (fun acc m => max acc (val m)) ⊥ with hS
      have hWdec : W = max e (max (val mv) S) := by
        rw [hW, foldl_max_from_init, max_assoc]
      have hW'dec : rest.foldl (fun acc m => max acc (val m)) (max e (ofInt r)) =
          max e (max (ofInt r) S) := by
        rw [foldl_max_from_init, max_assoc]
      rcases le_or_lt (ofInt r) a with hra | har
      · -- low child: its returned score upper-bounds its value
        have hvr : val mv ≤ ofInt r := k1 hra
        have haa' : max a (ofInt r) = a := max_eq_left hra
        rw [haa'] at c1 c3
        have hWW' : W ≤ rest.foldl (fun acc m => max acc (val m)) (max e (ofInt r)) := by
          rw [hWdec, hW'dec]
          exact max_le_max (le_refl e) (max_le_max hvr (le_refl S))
        refine ⟨?_, ?_, ?_⟩
        · intro hRa
          exact le_trans hWW' (c1 hRa)
        · intro hβR
          have hRW' := c2 hβR
          have hrltR : ofInt r < R :=
            lt_of_le_of_lt hra (lt_of_lt_of_le haβ hβR)
          rw [hW'dec] at hRW'
          rw [hWdec]
          rcases le_max_iff.1 hRW' with h | h
          · exact le_max_of_le_left h
          · rcases le_max_iff.1 h with h' | h'
            · exact absurd (lt_of_lt_of_le hrltR h') (lt_irrefl _)
            · exact le_max_of_le_right (le_max_of_le_right h')
        · intro haR hRβ
          have hRW' := c3 haR hRβ
          have hrltR : ofInt r < R := lt_of_le_of_lt hra haR
          refine le_antisymm ?_ (le_trans hWW' hRW'.symm.le)
          have hRle : R ≤ max e (max (ofInt r) S) := by rw [← hW'dec]; exact hRW'.le
          rw [hWdec]
          rcases le_max_iff.1 hRle with h | h
          · exact le_max_of_le_left h
          · rcases le_max_iff.1 h with h' | h'
            · exact absurd (lt_of_lt_of_le hrltR h') (lt_irrefl _)
            · exact le_max_of_le_right (le_max_of_le_right h')
      · -- in-window child: its score is exact
        have hrβ : ofInt r < β := lt_of_le_of_lt (le_max_right a (ofInt r)) ha'β
        have hexact : ofInt r = val mv := k3 har hrβ
        have hW'W : rest.foldl (fun acc m => max acc (val m)) (max e (ofInt r)) = W := by
          rw [hW'dec, hWdec, hexact]
        refine ⟨?_, ?_, ?_⟩
        · intro hRa
          have hra2 : ofInt r ≤ a :=
            le_trans (le_trans (le_max_right e (ofInt r)) hRge) hRa
          exact absurd (lt_of_le_of_lt hra2 har) (lt_irrefl _)
        · intro hβR
          exact hW'W ▸ c2 hβR
        · intro haR hRβ
          rcases le_or_lt R (max a (ofInt r)) with hRa' | ha'R
          · have hW'R := c1 hRa'
            have hRr : R ≤ ofInt r := by
              rcases le_max_iff.1 hRa' with h | h
              · exact absurd (lt_of_lt_of_le haR h) (lt_irrefl _)
              · exact h
            have hrW' : R ≤ rest.foldl (fun acc m => max acc (val m)) (max e (ofInt r)) :=
              le_trans hRr (le_trans (le_max_right e (ofInt r))
                (le_foldl_max _ rest (max e (ofInt r))))
            rw [← hW'W]
            exact le_antisymm hrW' hW'R
          · exact hW'W ▸ c3 ha'R hRβ

lemma loopMin_km (rec : Board → Player → ExtInt → ExtInt → ℤ × Option Nat)
    (val : Nat → ExtInt) (b : Board) (p : Player) :
    ∀ (ms : List Nat),
      (∀ m ∈ ms, ∀ a' β', a' < β' →
        KMrel (rec (b.set m (some p)) (opponent p) a' β').1 (val m) a' β') →
    ∀ (e : ExtInt) (bm : Option Nat) (a β : ExtInt), a < β → β ≤ e →
    ∀ R W, R = (loopMin rec b p ms e bm a β).1 →
      W = ms.foldl (fun acc m => min acc (val m)) e →
      (R ≤ a → W ≤ R) ∧ (β ≤ R → R ≤ W) ∧ (a < R → R < β → R = W) := by
  intro ms
  induction ms with
  | nil =>
    intro _ e bm a β _ _ R W hR hW
    simp only [loopMin, List.foldl_nil] at hR hW
    subst hR; subst hW
    exact ⟨fun _ => le_refl _, fun _ => le_refl _, fun _ _ => rfl⟩
  | cons mv rest ih =>
    intro hrec e bm a β haβ hβe R W hR hW
    have hmem : mv ∈ mv :: rest := List.mem_cons_self mv rest
    obtain ⟨k1, k2, k3⟩ := hrec mv hmem a β haβ
    simp only [loopMin, ite_lt_min] at hR
    simp only [List.foldl_cons] at hW
    set r : ℤ := (rec (b.set mv (some p)) (opponent p) a β).1 with hr
    by_cases hbr : min β (ofInt r) ≤ a
    · -- pruning break after this move
      simp only [hbr, if_true] at hR
      have hra : ofInt r ≤ a := by
        rcases min_le_iff.1 hbr with h | h
        · exact absurd h (not_le.2 haβ)
        · exact h
      have hvr : val mv ≤ ofInt r := k1 hra
      have hRr : R ≤ ofInt r := hR ▸ min_le_right e (ofInt r)
      refine ⟨?_, ?_, ?_⟩
      · intro _
        rw [hR, hW]
        exact le_trans (foldl_min_le _ rest (min e (val mv)))
          (min_le_min (le_refl e) hvr)
      · intro hβR
        exact absurd (lt_of_lt_of_le haβ (le_trans hβR (le_trans hRr hra)))
          (lt_irrefl a)
      · intro haR _
        exact absurd (lt_of_lt_of_le haR (le_trans hRr hra)) (lt_irrefl a)
    · -- no break: continue with lowered beta
      simp only [hbr, if_false] at hR
      have haβ' : a < min β (ofInt r) := not_le.1 hbr
      have hβ'e' : min β (ofInt r) ≤ min e (ofInt r) :=
        min_le_min hβe (le_refl (ofInt r))
      have hrec' : ∀ m ∈ rest, ∀ a' β', a' < β' →
          KMrel (rec (b.set m (some p)) (opponent p) a' β').1 (val m) a' β' :=
        fun m hm => hrec m (List.mem_cons_of_mem mv hm)
      obtain ⟨c1, c2, c3⟩ := ih hrec' (min e (ofInt r))
        (if ofInt r < e then some mv else bm) a (min β (ofInt r)) haβ' hβ'e'
        R (rest.foldl (fun acc m => min acc (val m)) (min e (ofInt r))) hR rfl
      have hRle : R ≤ min e (ofInt r) := hR ▸ loopMin_le rec b p rest _ _ _ _
      set S : ExtInt := rest.foldl (fun acc m => min acc (val m)) ⊤ with hS
      have hWdec : W = min e (min (val mv) S) := by
        rw [hW, foldl_min_from_init, min_assoc]
      have hW'dec : rest.foldl (fun acc m => min acc (val m)) (min e (ofInt r)) =
          min e (min (ofInt r) S) := by
        rw [foldl_min_from_init, min_assoc]
      have har : a < ofInt r := lt_of_lt_of_le haβ' (min_le_right β (ofInt r))
      rcases le_or_lt β (ofInt r) with hβr | hrβ
      · -- high child: its returned score lower-bounds its value
        have hrv : ofInt r ≤ val mv := k2 hβr
        have hββ' : min β (ofInt r) = β := min_eq_left hβr
        rw [hββ'] at c2 c3
        have hW'W : rest.foldl (fun acc m => min acc (val m)) (min e (ofInt r)) ≤ W := by
          rw [hWdec, hW'dec]
          exact min_le_min (le_refl e) (min_le_min hrv (le_refl S))
        refine ⟨?_, ?_, ?_⟩
        · intro hRa
          have hW'R := c1 hRa
          have hRltr : R < ofInt r :=
            lt_of_le_of_lt hRa (lt_of_lt_of_le haβ hβr)
          rw [hW'dec] at hW'R
          rw [hWdec]
          rcases min_le_iff.1 hW'R with h | h
          · exact min_le_of_left_le h
          · rcases min_le_iff.1 h with h' | h'
            · exact absurd (lt_of_le_of_lt h' hRltr) (lt_irrefl _)
            · exact min_le_of_right_le (min_le_of_right_le h')
        · intro hβR
          exact le_trans (c2 hβR) hW'W
        · intro haR hRβ
          have hRW' := c3 haR hRβ
          have hRltr : R < ofInt r := lt_of_lt_of_le hRβ hβr
          have hRmin : R = min (ofInt r) (min e S) := by
            rw [hRW', hW'dec, min_left_comm]
          have hRS : R = min e S := by
            rcases min_choice (ofInt r) (min e S) with h | h
            · rw [← hRmin] at h
              exact absurd h (ne_of_lt hRltr)
            · rw [← hRmin] at h
              exact h
          have hvR : R ≤ val mv := le_of_lt (lt_of_lt_of_le hRltr hrv)
          have hWR : W = min (val mv) R := by rw [hWdec, min_left_comm, ← hRS]
          rw [hWR, min_eq_right hvR]
      · -- in-window child: its score is exact
        have hexact : ofInt r = val mv := k3 har hrβ
        have hW'W : rest.foldl (fun acc m => min acc (val m)) (min e (ofInt r)) = W := by
          rw [hW'dec, hWdec, hexact]
        refine ⟨?_, ?_, ?_⟩
        · intro hRa
          exact hW'W ▸ c1 hRa
        · intro hβR
          have : ofInt r < β := hrβ
          exact absurd (lt_of_le_of_lt hβR (lt_of_le_of_lt
            (le_trans hRle (min_le_right e (ofInt r))) this)) (lt_irrefl β)
        · intro haR hRβ
          rcases lt_or_le R (min β (ofInt r)) with hRβ' | hβ'R
          · exact hW'W ▸ c3 haR hRβ'
          · have hrR : ofInt r ≤ R := by
              rcases min_le_iff.1 hβ'R with h | h
              · exact absurd (lt_of_le_of_lt h hRβ) (lt_irrefl β)
              · exact h
            have hRr : R ≤ ofInt r := le_trans hRle (min_le_right e (ofInt r))
            have hRW' := c2 hβ'R
            have hW'R : rest.foldl (fun acc m => min acc (val m)) (min e (ofInt r)) ≤ R :=
              le_trans (foldl_min_le _ rest (min e (ofInt r)))
                (le_trans (min_le_right e (ofInt r)) hrR)
            rw [← hW'W]
            exact le_antisymm hRW' hW'R

/-! Unfolding lemmas for `minimaxUnpruned`, finiteness of loop results, and
the main alpha-beta correctness theorem. -/

lemma minimaxUnpruned_succ_winX {b : Board} (fuel : Nat) (p : Player) (maxi : Bool)
    (h : check_winner b = some Player.X) :
    minimaxUnpruned (fuel + 1) b p maxi = ofInt 1 := by
  simp [minimaxUnpruned, h]

lemma minimaxUnpruned_succ_winO {b : Board} (fuel : Nat) (p : Player) (maxi : Bool)
    (h : check_winner b = some Player.O) :
    minimaxUnpruned (fuel + 1) b p maxi = ofInt (-1) := by
  simp [minimaxUnpruned, h]

lemma minimaxUnpruned_succ_full {b : Board} (fuel : Nat) (p : Player) (maxi : Bool)
    (h : check_winner b = none) (hf : is_board_full b = true) :
    minimaxUnpruned (fuel + 1) b p maxi = ofInt 0 := by
  simp [minimaxUnpruned, h, hf]

lemma minimaxUnpruned_succ_max {b : Board} (fuel : Nat) (p : Player)
    (h : check_winner b = none) (hf : is_board_full b = false) :
    minimaxUnpruned (fuel + 1) b p true =
      (available_moves b).foldl
        (fun acc m => max acc (minimaxUnpruned fuel (b.set m (some p)) (opponent p) false)) ⊥ := by
  simp [minimaxUnpruned, h, hf]

lemma minimaxUnpruned_succ_min {b : Board} (fuel : Nat) (p : Player)
    (h : check_winner b = none) (hf : is_board_full b = false) :
    minimaxUnpruned (fuel + 1) b p false =
      (available_moves b).foldl
        (fun acc m => min acc (minimaxUnpruned fuel (b.set m (some p)) (opponent p) true)) ⊤ := by
  simp [minimaxUnpruned, h, hf]

lemma loopMax_ne_top (rec : Board → Player → ExtInt → ExtInt → ℤ × Option Nat)
    (b : Board) (p : Player) :
    ∀ (ms : List Nat) (e : ExtInt) (bm : Option Nat) (a β : ExtInt), e ≠ ⊤ →
      (loopMax rec b p ms e bm a β).1 ≠ ⊤ := by
  intro ms
  induction ms with
  | nil => intro e bm a β he; simpa [loopMax] using he
  | cons mv rest ih =>
    intro e bm a β he
    simp only [loopMax, ite_lt_max]
    by_cases hbr : β ≤ max a (ofInt ((rec (b.set mv (some p)) (opponent p) a β).1))
    · simp only [hbr, if_true]
      exact (max_lt (lt_top_iff_ne_top.2 he) (ofInt_lt_top _)).ne
    · simp only [hbr, if_false]
      exact ih _ _ _ _ (max_lt (lt_top_iff_ne_top.2 he) (ofInt_lt_top _)).ne

lemma loopMax_ne_bot (rec : Board → Player → ExtInt → ExtInt → ℤ × Option Nat)
    (b : Board) (p : Player) :
    ∀ (ms : List Nat) (e : ExtInt) (bm : Option Nat) (a β : ExtInt), ms ≠ [] →
      (loopMax rec b p ms e bm a β).1 ≠ ⊥ := by
  intro ms
  cases ms with
  | nil => intro e bm a β h; exact absurd rfl h
  | cons mv rest =>
    intro e bm a β _
    simp only [loopMax, ite_lt_max]
    by_cases hbr : β ≤ max a (ofInt ((rec (b.set mv (some p)) (opponent p) a β).1))
    · simp only [hbr, if_true]
      exact ne_bot_of_le_ne_bot (bot_lt_ofInt _).ne' (le_max_right _ _)
    · simp only [hbr, if_false]
      exact ne_bot_of_le_ne_bot (bot_lt_ofInt _).ne'
        (le_trans (le_max_right _ _) (loopMax_ge rec b p rest _ _ _ _))

lemma loopMin_ne_bot (rec : Board → Player → ExtInt → ExtInt → ℤ × Option Nat)
    (b : Board) (p : Player) :
    ∀ (ms : List Nat) (e : ExtInt) (bm : Option Nat) (a β : ExtInt), e ≠ ⊥ →
      (loopMin rec b p ms e bm a β).1 ≠ ⊥ := by
  intro ms
  induction ms with
  | nil => intro e bm a β he; simpa [loopMin] using he
  | cons mv rest ih =>
    intro e bm a β he
    simp only [loopMin, ite_lt_min]
    by_cases hbr : min β (ofInt ((rec (b.set mv (some p)) (opponent p) a β).1)) ≤ a
    · simp only [hbr, if_true]
      exact (lt_min (bot_lt_iff_ne_bot.2 he) (bot_lt_ofInt _)).ne.symm
    · simp only [hbr, if_false]
      exact ih _ _ _ _ (lt_min (bot_lt_iff_ne_bot.2 he) (bot_lt_ofInt _)).ne.symm

lemma loopMin_ne_top (rec : Board → Player → ExtInt → ExtInt → ℤ × Option Nat)
    (b : Board) (p : Player) :
    ∀ (ms : List Nat) (e : ExtInt) (bm : Option Nat) (a β : ExtInt), ms ≠ [] →
      (loopMin rec b p ms e bm a β).1 ≠ ⊤ := by
  intro ms
  cases ms with
  | nil => intro e bm a β h; exact absurd rfl h
  | cons mv rest =>
    intro e bm a β _
    simp only [loopMin, ite_lt_min]
    by_cases hbr : min β (ofInt ((rec (b.set mv (some p)) (opponent p) a β).1)) ≤ a
    · simp only [hbr, if_true]
      exact ne_top_of_le_ne_top (ofInt_lt_top _).ne (min_le_right _ _)
    · simp only [hbr, if_false]
      exact ne_top_of_le_ne_top (ofInt_lt_top _).ne
        (le_trans (loopMin_le rec b p rest _ _ _ _) (min_le_right _ _))

/-- Knuth-Moore correctness of the alpha-beta search of the source against
plain unpruned minimax, for any window and sufficient fuel. -/
theorem minimax_km : ∀ (fuel : Nat) (b : Board) (p : Player) (maxi : Bool)
    (a β : ExtInt), countNone b < fuel → a < β →
    KMrel (minimaxF fuel b p maxi a β).1 (minimaxUnpruned fuel b p maxi) a β := by
  intro fuel
  induction fuel with
  | zero => intro b p maxi a β h; omega
  | succ n ih =>
    intro b p maxi a β hfuel haβ
    cases hw : check_winner b with
    | some w =>
      cases w with
      | X =>
        rw [minimaxF_succ_winX n p maxi a β hw, minimaxUnpruned_succ_winX n p maxi hw]
        exact ⟨fun _ => le_refl _, fun _ => le_refl _, fun _ _ => rfl⟩
      | O =>
        rw [minimaxF_succ_winO n p maxi a β hw, minimaxUnpruned_succ_winO n p maxi hw]
        exact ⟨fun _ => le_refl _, fun _ => le_refl _, fun _ _ => rfl⟩
    | none =>
      cases hf : is_board_full b with
      | true =>
        rw [minimaxF_succ_full n p maxi a β hw hf, minimaxUnpruned_succ_full n p maxi hw hf]
        exact ⟨fun _ => le_refl _, fun _ => le_refl _, fun _ _ => rfl⟩
      | false =>
        have hpos := countNone_pos_of_not_full hf
        have havail : available_moves b ≠ [] := by
          intro h
          rw [available_moves_eq_nil_iff b] at h
          rw [h] at hf
          cases hf
        cases maxi with
        | true =>
          rw [minimaxF_succ_max n p a β hw hf, minimaxUnpruned_succ_max n p hw hf]
          have hrec : ∀ m ∈ available_moves b, ∀ a' β', a' < β' →
              KMrel ((fun b' p' a2 b'' => minimaxF n b' p' false a2 b'')
                  (b.set m (some p)) (opponent p) a' β').1
                (minimaxUnpruned n (b.set m (some p)) (opponent p) false) a' β' := by
            intro m hm a' β' ha'β'
            have hchild := countNone_child p hm
            exact ih (b.set m (some p)) (opponent p) false a' β' (by omega) ha'β'
          obtain ⟨c1, c2, c3⟩ := loopMax_km
            (fun b' p' a2 b'' => minimaxF n b' p' false a2 b'')
            (fun m => minimaxUnpruned n (b.set m (some p)) (opponent p) false)
            b p (available_moves b) hrec ⊥ none a β haβ bot_le
            ((loopMax (fun b' p' a2 b'' => minimaxF n b' p' false a2 b'')
              b p (available_moves b) ⊥ none a β).1) _ rfl rfl
          have hnbot := loopMax_ne_bot
            (fun b' p' a2 b'' => minimaxF n b' p' false a2 b'')
            b p (available_moves b) ⊥ none a β havail
          have hntop := loopMax_ne_top
            (fun b' p' a2 b'' => minimaxF n b' p' false a2 b'')
            b p (available_moves b) ⊥ none a β bot_ne_top
          obtain ⟨k, hk⟩ := exists_ofInt_of_bounds
            (bot_lt_iff_ne_bot.2 hnbot) (lt_top_iff_ne_top.2 hntop)
          rw [hk] at c1 c2 c3 ⊢
          rw [toInt_ofInt]
          exact ⟨c1, c2, c3⟩
        | false =>
          rw [minimaxF_succ_min n p a β hw hf, minimaxUnpruned_succ_min n p hw hf]
          have hrec : ∀ m ∈ available_moves b, ∀ a' β', a' < β' →
              KMrel ((fun b' p' a2 b'' => minimaxF n b' p' true a2 b'')
                  (b.set m (some p)) (opponent p) a' β').1
                (minimaxUnpruned n (b.set m (some p)) (opponent p) true) a' β' := by
            intro m hm a' β' ha'β'
            have hchild := countNone_child p hm
            exact ih (b.set m (some p)) (opponent p) true a' β' (by omega) ha'β'
          obtain ⟨c1, c2, c3⟩ := loopMin_km
            (fun b' p' a2 b'' => minimaxF n b' p' true a2 b'')
            (fun m => minimaxUnpruned n (b.set m (some p)) (opponent p) true)
            b p (available_moves b) hrec ⊤ none a β haβ le_top
            ((loopMin (fun b' p' a2 b'' => minimaxF n b' p' true a2 b'')
              b p (available_moves b) ⊤ none a β).1) _ rfl rfl
          have hnbot := loopMin_ne_bot
            (fun b' p' a2 b'' => minimaxF n b' p' true a2 b'')
            b p (available_moves b) ⊤ none a β top_ne_bot
          have hntop := loopMin_ne_top
            (fun b' p' a2 b'' => minimaxF n b' p' true a2 b'')
            b p (available_moves b) ⊤ none a β havail
          obtain ⟨k, hk⟩ := exists_ofInt_of_bounds
            (bot_lt_iff_ne_bot.2 hnbot) (lt_top_iff_ne_top.2 hntop)
          rw [hk] at c1 c2 c3 ⊢
          rw [toInt_ofInt]
          exact ⟨c1, c2, c3⟩

/-! Exactness of the full-window search: with window `(⊥, ⊤)` no pruning can
cut the root loop, the score is the exact minimax value, and the returned
move is an available move achieving it. -/

lemma loopMax_exact (rec : Board → Player → ExtInt → ExtInt → ℤ × Option Nat)
    (val : Nat → ExtInt) (b : Board) (p : Player) :
    ∀ (ms : List Nat), (∀ m ∈ ms, m ∈ available_moves b) →
      (∀ m ∈ ms, ∀ a', a' < ⊤ →
        KMrel (rec (b.set m (some p)) (opponent p) a' ⊤).1 (val m) a' ⊤) →
    ∀ (e : ExtInt) (bm : Option Nat), e ≠ ⊤ →
      (bm = none ∧ e = ⊥ ∨ ∃ m0, bm = some m0 ∧ m0 ∈ available_moves b ∧ val m0 = e) →
      (loopMax rec b p ms e bm e ⊤).1 = ms.foldl (fun acc m => max acc (val m)) e ∧
      ((loopMax rec b p ms e bm e ⊤).2 = none ∧ (loopMax rec b p ms e bm e ⊤).1 = ⊥ ∨
        ∃ m0, (loopMax rec b p ms e bm e ⊤).2 = some m0 ∧ m0 ∈ available_moves b ∧
          val m0 = (loopMax rec b p ms e bm e ⊤).1) := by
  intro ms
  induction ms with
  | nil =>
    intro _ _ e bm he hbm
    simpa [loopMax] using hbm
  | cons mv rest ih =>
    intro hmoves hrec e bm he hbm
    have hmem : mv ∈ mv :: rest := List.mem_cons_self mv rest
    obtain ⟨k1, k2, k3⟩ := hrec mv hmem e (lt_top_iff_ne_top.2 he)
    set r : ℤ := (rec (b.set mv (some p)) (opponent p) e ⊤).1 with hr
    have hnbr : ¬(⊤ : ExtInt) ≤ max e (ofInt r) :=
      not_le.2 (max_lt (lt_top_iff_ne_top.2 he) (ofInt_lt_top r))
    simp only [loopMax, ite_lt_max, ← hr, hnbr, if_false, List.foldl_cons]
    have he' : max e (ofInt r) ≠ ⊤ :=
      (max_lt (lt_top_iff_ne_top.2 he) (ofInt_lt_top r)).ne
    by_cases hup : e < ofInt r
    · -- strict improvement: the child score is exact and becomes the best
      have hex : ofInt r = val mv := k3 hup (ofInt_lt_top r)
      have hmax : max e (ofInt r) = ofInt r := max_eq_right hup.le
      have hbm' : (if e < ofInt r then some mv else bm) = some mv ∧
          mv ∈ available_moves b ∧ val mv = max e (ofInt r) := by
        refine ⟨by simp [hup], hmoves mv hmem, ?_⟩
        rw [hmax, hex]
      have hfold : max e (val mv) = max e (ofInt r) := by rw [hex]
      rw [← hfold] at he' ⊢
      obtain ⟨hsc, hmv⟩ := ih (fun m hm => hmoves m (List.mem_cons_of_mem mv hm))
        (fun m hm => hrec m (List.mem_cons_of_mem mv hm))
        (max e (val mv)) (if e < ofInt r then some mv else bm) he'
        (Or.inr ⟨mv, hbm'.1, hbm'.2.1, (hfold ▸ hbm'.2.2)⟩)
      exact ⟨hsc, hmv⟩
    · -- no improvement: the child value cannot beat the accumulator
      have hre : ofInt r ≤ e := not_lt.1 hup
      have hvr : val mv ≤ ofInt r := k1 hre
      have hmax : max e (ofInt r) = e := max_eq_left hre
      have hfold : max e (val mv) = e := max_eq_left (le_trans hvr hre)
      rw [hmax, hfold]
      have hbmif : (if e < ofInt r then some mv else bm) = bm := by simp [hup]
      rw [hbmif]
      exact ih (fun m hm => hmoves m (List.mem_cons_of_mem mv hm))
        (fun m hm => hrec m (List.mem_cons_of_mem mv hm)) e bm he hbm

lemma loopMin_exact (rec : Board → Player → ExtInt → ExtInt → ℤ × Option Nat)
    (val : Nat → ExtInt) (b : Board) (p : Player) :
    ∀ (ms : List Nat), (∀ m ∈ ms, m ∈ available_moves b) →
      (∀ m ∈ ms, ∀ β', ⊥ < β' →
        KMrel (rec (b.set m (some p)) (opponent p) ⊥ β').1 (val m) ⊥ β') →
    ∀ (e : ExtInt) (bm : Option Nat), e ≠ ⊥ →
      (bm = none ∧ e = ⊤ ∨ ∃ m0, bm = some m0 ∧ m0 ∈ available_moves b ∧ val m0 = e) →
      (loopMin rec b p ms e bm ⊥ e).1 = ms.foldl (fun acc m => min acc (val m)) e ∧
      ((loopMin rec b p ms e bm ⊥ e).2 = none ∧ (loopMin rec b p ms e bm ⊥ e).1 = ⊤ ∨
        ∃ m0, (loopMin rec b p ms e bm ⊥ e).2 = some m0 ∧ m0 ∈ available_moves b ∧
          val m0 = (loopMin rec b p ms e bm ⊥ e).1) := by
  intro ms
  induction ms with
  | nil =>
    intro _ _ e bm he hbm
    simpa [loopMin] using hbm
  | cons mv rest ih =>
    intro hmoves hrec e bm he hbm
    have hmem : mv ∈ mv :: rest := List.mem_cons_self mv rest
    obtain ⟨k1, k2, k3⟩ := hrec mv hmem e (bot_lt_iff_ne_bot.2 he)
    set r : ℤ := (rec (b.set mv (some p)) (opponent p) ⊥ e).1 with hr
    have hnbr : ¬min e (ofInt r) ≤ (⊥ : ExtInt) :=
      not_le.2 (lt_min (bot_lt_iff_ne_bot.2 he) (bot_lt_ofInt r))
    simp only [loopMin, ite_lt_min, ← hr, hnbr, if_false, List.foldl_cons]
    have he' : min e (ofInt r) ≠ ⊥ :=
      (lt_min (bot_lt_iff_ne_bot.2 he) (bot_lt_ofInt r)).ne.symm
    by_cases hup : ofInt r < e
    · have hex : ofInt r = val mv := k3 (bot_lt_ofInt r) hup
      have hmin : min e (ofInt r) = ofInt r := min_eq_right hup.le
      have hfold : min e (val mv) = min e (ofInt r) := by rw [hex]
      rw [← hfold] at he' ⊢
      exact ih (fun m hm => hmoves m (List.mem_cons_of_mem mv hm))
        (fun m hm => hrec m (List.mem_cons_of_mem mv hm))
        (min e (val mv)) (if ofInt r < e then some mv else bm) he'
        (Or.inr ⟨mv, by simp [hup], hmoves mv hmem, by rw [hfold, hmin, hex]⟩)
    · have hre : e ≤ ofInt r := not_lt.1 hup
      have hvr : ofInt r ≤ val mv := k2 hre
      have hmin : min e (ofInt r) = e := min_eq_left hre
      have hfold : min e (val mv) = e := min_eq_left (le_trans hre hvr)
      rw [hmin, hfold]
      have hbmif : (if ofInt r < e then some mv else bm) = bm := by simp [hup]
      rw [hbmif]
      exact ih (fun m hm => hmoves m (List.mem_cons_of_mem mv hm))
        (fun m hm => hrec m (List.mem_cons_of_mem mv hm)) e bm he hbm

lemma countNone_lt_succ_length (b : Board) : countNone b < b.length + 1 :=
  Nat.lt_succ_of_le (countNone_le_length b)

lemma minimaxF_max_exact (fuel : Nat) (b : Board) (p : Player)
    (hfuel : countNone b ≤ fuel) (hw : check_winner b = none)
    (hf : is_board_full b = false) :
    ofInt ((minimaxF (fuel + 1) b p true ⊥ ⊤).1) = minimaxUnpruned (fuel + 1) b p true ∧
    ∃ m, (minimaxF (fuel + 1) b p true ⊥ ⊤).2 = some m ∧ m ∈ available_moves b ∧
      minimaxUnpruned fuel (b.set m (some p)) (opponent p) false =
        ofInt ((minimaxF (fuel + 1) b p true ⊥ ⊤).1) := by
  have havail : available_moves b ≠ [] := by
    intro h
    rw [available_moves_eq_nil_iff b] at h
    rw [h] at hf
    cases hf
  have hrec : ∀ m ∈ available_moves b, ∀ a', a' < ⊤ →
      KMrel ((fun b' p' a2 b'' => minimaxF fuel b' p' false a2 b'')
          (b.set m (some p)) (opponent p) a' ⊤).1
        (minimaxUnpruned fuel (b.set m (some p)) (opponent p) false) a' ⊤ := by
    intro m hm a' ha'
    have hchild := countNone_child p hm
    exact minimax_km fuel (b.set m (some p)) (opponent p) false a' ⊤ (by omega) ha'
  obtain ⟨hsc, hmv⟩ := loopMax_exact
    (fun b' p' a2 b'' => minimaxF fuel b' p' false a2 b'')
    (fun m => minimaxUnpruned fuel (b.set m (some p)) (opponent p) false)
    b p (available_moves b) (fun m hm => hm) hrec ⊥ none bot_ne_top (Or.inl ⟨rfl, rfl⟩)
  have hnbot := loopMax_ne_bot
    (fun b' p' a2 b'' => minimaxF fuel b' p' false a2 b'')
    b p (available_moves b) ⊥ none ⊥ ⊤ havail
  have hntop := loopMax_ne_top
    (fun b' p' a2 b'' => minimaxF fuel b' p' false a2 b'')
    b p (available_moves b) ⊥ none ⊥ ⊤ bot_ne_top
  obtain ⟨k, hk⟩ := exists_ofInt_of_bounds
    (bot_lt_iff_ne_bot.2 hnbot) (lt_top_iff_ne_top.2 hntop)
  rw [minimaxF_succ_max fuel p ⊥ ⊤ hw hf, minimaxUnpruned_succ_max fuel p hw hf]
  simp only [hk, toInt_ofInt] at hsc hmv ⊢
  refine ⟨hsc, ?_⟩
  rcases hmv with ⟨_, hbad⟩ | ⟨m, h1, h2, h3⟩
  · rw [hk] at hnbot
    exact absurd (by simpa using hbad.symm) (Ne.symm hnbot)
  · exact ⟨m, h1, h2, h3⟩

lemma minimaxF_min_exact (fuel : Nat) (b : Board) (p : Player)
    (hfuel : countNone b ≤ fuel) (hw : check_winner b = none)
    (hf : is_board_full b = false) :
    ofInt ((minimaxF (fuel + 1) b p false ⊥ ⊤).1) = minimaxUnpruned (fuel + 1) b p false ∧
    ∃ m, (minimaxF (fuel + 1) b p false ⊥ ⊤).2 = some m ∧ m ∈ available_moves b ∧
      minimaxUnpruned fuel (b.set m (some p)) (opponent p) true =
        ofInt ((minimaxF (fuel + 1) b p false ⊥ ⊤).1) := by
  have havail : available_moves b ≠ [] := by
    intro h
    rw [available_moves_eq_nil_iff b] at h
    rw [h] at hf
    cases hf
  have hrec : ∀ m ∈ available_moves b, ∀ β', ⊥ < β' →
      KMrel ((fun b' p' a2 b'' => minimaxF fuel b' p' true a2 b'')
          (b.set m (some p)) (opponent p) ⊥ β').1
        (minimaxUnpruned fuel (b.set m (some p)) (opponent p) true) ⊥ β' := by
    intro m hm β' hβ'
    have hchild := countNone_child p hm
    exact minimax_km fuel (b.set m (some p)) (opponent p) true ⊥ β' (by omega) hβ'
  obtain ⟨hsc, hmv⟩ := loopMin_exact
    (fun b' p' a2 b'' => minimaxF fuel b' p' true a2 b'')
    (fun m => minimaxUnpruned fuel (b.set m (some p)) (opponent p) true)
    b p (available_moves b) (fun m hm => hm) hrec ⊤ none top_ne_bot (Or.inl ⟨rfl, rfl⟩)
  have hnbot := loopMin_ne_bot
    (fun b' p' a2 b'' => minimaxF fuel b' p' true a2 b'')
    b p (available_moves b) ⊤ none ⊥ ⊤ top_ne_bot
  have hntop := loopMin_ne_top
    (fun b' p' a2 b'' => minimaxF fuel b' p' true a2 b'')
    b p (available_moves b) ⊤ none ⊥ ⊤ havail
  obtain ⟨k, hk⟩ := exists_ofInt_of_bounds
    (bot_lt_iff_ne_bot.2 hnbot) (lt_top_iff_ne_top.2 hntop)
  rw [minimaxF_succ_min fuel p ⊥ ⊤ hw hf, minimaxUnpruned_succ_min fuel p hw hf]
  simp only [hk, toInt_ofInt] at hsc hmv ⊢
  refine ⟨hsc, ?_⟩
  rcases hmv with ⟨_, hbad⟩ | ⟨m, h1, h2, h3⟩
  · rw [hk] at hntop
    exact absurd (by simpa using hbad.symm) (Ne.symm hntop)
  · exact ⟨m, h1, h2, h3⟩

/-! Tie-break characterization: at a window that cannot prune, the loops are
exactly a first-strict-argmax / argmin fold over the observed child scores. -/

lemma loopMax_eq_firstStrictMax (rec : Board → Player → ExtInt → ExtInt → ℤ × Option Nat)
    (b : Board) (p : Player) :
    ∀ (ms : List Nat) (e : ExtInt) (bm : Option Nat) (a : ExtInt), a ≠ ⊤ →
      loopMax rec b p ms e bm a ⊤ =
        firstStrictMax (ms.zip (scoreSeqMax rec b p ⊤ ms a)) e bm := by
  intro ms
  induction ms with
  | nil => intro e bm a _; simp [loopMax, scoreSeqMax, firstStrictMax]
  | cons mv rest ih =>
    intro e bm a ha
    set r : ℤ := (rec (b.set mv (some p)) (opponent p) a ⊤).1 with hr
    have hnbr : ¬(⊤ : ExtInt) ≤ max a (ofInt r) :=
      not_le.2 (max_lt (lt_top_iff_ne_top.2 ha) (ofInt_lt_top r))
    have ha' : max a (ofInt r) ≠ ⊤ :=
      (max_lt (lt_top_iff_ne_top.2 ha) (ofInt_lt_top r)).ne
    simp only [loopMax, scoreSeqMax, ite_lt_max, ← hr, hnbr, if_false,
      List.zip_cons_cons, firstStrictMax]
    by_cases hup : e < ofInt r
    · simp only [hup, if_true]
      rw [max_eq_right hup.le]
      exact ih (ofInt r) (some mv) (max a (ofInt r)) ha'
    · simp only [hup, if_false]
      rw [max_eq_left (not_lt.1 hup)]
      exact ih e bm (max a (ofInt r)) ha'

lemma loopMin_eq_firstStrictMin (rec : Board → Player → ExtInt → ExtInt → ℤ × Option Nat)
    (b : Board) (p : Player) :
    ∀ (ms : List Nat) (e : ExtInt) (bm : Option Nat) (β : ExtInt), β ≠ ⊥ →
      loopMin rec b p ms e bm ⊥ β =
        firstStrictMin (ms.zip (scoreSeqMin rec b p ⊥ ms β)) e bm := by
  intro ms
  induction ms with
  | nil => intro e bm β _; simp [loopMin, scoreSeqMin, firstStrictMin]
  | cons mv rest ih =>
    intro e bm β hβ
    set r : ℤ := (rec (b.set mv (some p)) (opponent p) ⊥ β).1 with hr
    have hnbr : ¬min β (ofInt r) ≤ (⊥ : ExtInt) :=
      not_le.2 (lt_min (bot_lt_iff_ne_bot.2 hβ) (bot_lt_ofInt r))
    have hβ' : min β (ofInt r) ≠ ⊥ :=
      (lt_min (bot_lt_iff_ne_bot.2 hβ) (bot_lt_ofInt r)).ne.symm
    simp only [loopMin, scoreSeqMin, ite_lt_min, ← hr, hnbr, if_false,
      List.zip_cons_cons, firstStrictMin]
    by_cases hup : ofInt r < e
    · simp only [hup, if_true]
      rw [min_eq_right hup.le]
      exact ih (ofInt r) (some mv) (min β (ofInt r)) hβ'
    · simp only [hup, if_false]
      rw [min_eq_left (not_lt.1 hup)]
      exact ih e bm (min β (ofInt r)) hβ'

/-! Claim theorems (first batch). -/

/-- C2: for every board and mark to move (and either polarity flag), the
alpha-beta pruned search called with `alpha = -inf`, `beta = +inf` returns
exactly the score of unpruned minimax on that board; the move index is not
constrained.  This holds for all boards, in particular all reachable ones. -/
theorem claim_C2 (b : Board) (p : Player) (maxi : Bool) :
    ofInt ((minimaxF (b.length + 1) b p maxi ⊥ ⊤).1) =
      minimaxUnpruned (b.length + 1) b p maxi := by
  have h := minimax_km (b.length + 1) b p maxi ⊥ ⊤ (countNone_lt_succ_length b)
    bot_lt_top
  exact h.2.2 (bot_lt_ofInt _) (ofInt_lt_top _)

/-- C3: a call to the recursive search returns with the board in exactly the
state it had at entry: in the state-passing rendering of the source's
mutate-recurse-undo loop (including the early pruning exit), the final board
equals the input board and the result is that of the pure search. -/
theorem claim_C3 (fuel : Nat) (b : Board) (p : Player) (maxi : Bool)
    (alpha beta : ExtInt) :
    (minimaxS fuel b p maxi alpha beta).2 = b ∧
    (minimaxS fuel b p maxi alpha beta).1 = minimaxF fuel b p maxi alpha beta := by
  rw [minimaxS_eq]
  exact ⟨rfl, rfl⟩

/-- C4: `check_winner` scans the 8 fixed win lines in their fixed order and
returns the mark of the first line whose three cells hold the same non-empty
mark (`List.find?` is exactly first-match in order), and returns `none` iff
no line is fully matched by a single mark. -/
theorem claim_C4 (b : Board) :
    WIN_LINES.length = 8 ∧
    check_winner b =
      (WIN_LINES.find? (fun l => decide (∃ w, lineFilled b l w))).bind
        (fun l => cell b l.1) ∧
    (check_winner b = none ↔ ∀ w, ¬hasWinner b w) :=
  ⟨rfl, scanLines_eq_find? b WIN_LINES, check_winner_eq_none_iff b⟩

/-- C5: the search performs its terminal check before expanding any moves and
returns `(+1, none)` when Mark A (`'X'`) has a winning line, `(-1, none)` when
Mark B (`'O'`) has one, and `(0, none)` when the board is full with no winner,
for any window, mark to move and polarity flag. -/
theorem claim_C5 (fuel : Nat) (b : Board) (p : Player) (maxi : Bool)
    (alpha beta : ExtInt) :
    (check_winner b = some Player.X →
      minimaxF (fuel + 1) b p maxi alpha beta = (1, none)) ∧
    (check_winner b = some Player.O →
      minimaxF (fuel + 1) b p maxi alpha beta = (-1, none)) ∧
    (check_winner b = none → is_board_full b = true →
      minimaxF (fuel + 1) b p maxi alpha beta = (0, none)) :=
  ⟨fun h => minimaxF_succ_winX fuel p maxi alpha beta h,
   fun h => minimaxF_succ_winO fuel p maxi alpha beta h,
   fun h hf => minimaxF_succ_full fuel p maxi alpha beta h hf⟩

/-- Witness for C5 at three concrete terminal boards (an `'X'` win, an `'O'`
win, and a full draw). -/
theorem claim_C5_witness :
    minimaxF 1 [some Player.X, some Player.X, some Player.X,
      some Player.O, some Player.O, none, none, none, none]
      Player.X true ⊥ ⊤ = (1, none) ∧
    minimaxF 1 [some Player.O, some Player.O, some Player.O,
      some Player.X, some Player.X, none, some Player.X, none, none]
      Player.O false ⊥ ⊤ = (-1, none) ∧
    minimaxF 1 [some Player.X, some Player.O, some Player.X,
      some Player.X, some Player.O, some Player.O,
      some Player.O, some Player.X, some Player.X]
      Player.X true ⊥ ⊤ = (0, none) :=
  ⟨(claim_C5 0 _ Player.X true ⊥ ⊤).1 (by decide),
   (claim_C5 0 _ Player.O false ⊥ ⊤).2.1 (by decide),
   (claim_C5 0 _ Player.X true ⊥ ⊤).2.2 (by decide) (by decide)⟩

/-- C8: on a terminal board (winner present, or full with no empty cell) the
move component of the search result is explicitly `none`, and `best_move_for`
on a terminal non-empty board consequently returns no move. -/
theorem claim_C8 (fuel : Nat) (b : Board) (p : Player) (maxi : Bool)
    (alpha beta : ExtInt) (ai : Player) (seed : Nat) :
    (game_over b = true → (minimaxF (fuel + 1) b p maxi alpha beta).2 = none) ∧
    (game_over b = true → b.all (fun v => v.isNone) = false →
      best_move_for seed b ai = none) := by
  have hterm : game_over b = true →
      ∀ f, (minimaxF (f + 1) b p maxi alpha beta).2 = none := by
    intro hg f
    rw [game_over, Bool.or_eq_true] at hg
    rcases hg with hw | hf
    · rw [Option.isSome_iff_exists] at hw
      obtain ⟨w, hw⟩ := hw
      cases w with
      | X => rw [minimaxF_succ_winX f p maxi alpha beta hw]
      | O => rw [minimaxF_succ_winO f p maxi alpha beta hw]
    · cases hw : check_winner b with
      | some w =>
        cases w with
        | X => rw [minimaxF_succ_winX f p maxi alpha beta hw]
        | O => rw [minimaxF_succ_winO f p maxi alpha beta hw]
      | none => rw [minimaxF_succ_full f p maxi alpha beta hw hf]
  refine ⟨fun hg => hterm hg fuel, fun hg hne => ?_⟩
  have htermX : ∀ f q mm, (minimaxF (f + 1) b q mm ⊥ ⊤).2 = none := by
    intro f q mm
    rw [game_over, Bool.or_eq_true] at hg
    rcases hg with hw | hf
    · rw [Option.isSome_iff_exists] at hw
      obtain ⟨w, hw⟩ := hw
      cases w with
      | X => rw [minimaxF_succ_winX f q mm ⊥ ⊤ hw]
      | O => rw [minimaxF_succ_winO f q mm ⊥ ⊤ hw]
    · cases hw : check_winner b with
      | some w =>
        cases w with
        | X => rw [minimaxF_succ_winX f q mm ⊥ ⊤ hw]
        | O => rw [minimaxF_succ_winO f q mm ⊥ ⊤ hw]
      | none => rw [minimaxF_succ_full f q mm ⊥ ⊤ hw hf]
  rw [best_move_for, hne]
  simp only [Bool.false_eq_true, if_false]
  by_cases hai : ai = Player.X
  · rw [if_pos hai]
    exact htermX b.length Player.X true
  · rw [if_neg hai]
    exact htermX b.length Player.O false

/-- Witness for C8 at a concrete won, non-empty board. -/
theorem claim_C8_witness :
    (minimaxF 1 [some Player.X, some Player.X, some Player.X,
      some Player.O, some Player.O, none, none, none, none]
      Player.O false ⊥ ⊤).2 = none ∧
    best_move_for 0 [some Player.X, some Player.X, some Player.X,
      some Player.O, some Player.O, none, none, none, none] Player.O = none :=
  ⟨(claim_C8 0 _ Player.O false ⊥ ⊤ Player.O 0).1 (by decide),
   (claim_C8 0 _ Player.O false ⊥ ⊤ Player.O 0).2 (by decide) (by decide)⟩

/-- C10: the search terminates on every board: each recursive call is on a
board with strictly fewer empty cells, so any fuel above `countNone b`
computes the same result (the function is total, with recursion depth
bounded by the number of empty cells, at most 9 on a 9-cell board). -/
theorem claim_C10 (b : Board) (p : Player) (maxi : Bool) (alpha beta : ExtInt) :
    (∀ fuel, countNone b < fuel →
      minimaxF fuel b p maxi alpha beta =
        minimaxF (countNone b + 1) b p maxi alpha beta) ∧
    (∀ m ∈ available_moves b, countNone (b.set m (some p)) < countNone b) ∧
    (b.length = 9 → countNone b ≤ 9) := by
  refine ⟨fun fuel h => minimaxF_fuel_congr fuel (countNone b + 1) b p maxi
    alpha beta h (Nat.lt_succ_self _), ?_, ?_⟩
  · intro m hm
    have := countNone_child p hm
    omega
  · intro h
    have := countNone_le_length b
    omega

/-- Witness for C10 at a concrete one-empty board. -/
theorem claim_C10_witness :
    (minimaxF 3 [some Player.X, some Player.O, some Player.X,
        some Player.X, some Player.O, some Player.O,
        some Player.O, some Player.X, none] Player.X true ⊥ ⊤ =
      minimaxF (countNone [some Player.X, some Player.O, some Player.X,
        some Player.X, some Player.O, some Player.O,
        some Player.O, some Player.X, none] + 1)
        [some Player.X, some Player.O, some Player.X,
        some Player.X, some Player.O, some Player.O,
        some Player.O, some Player.X, none] Player.X true ⊥ ⊤) ∧
    countNone (List.set [some Player.X, some Player.O, some Player.X,
        some Player.X, some Player.O, some Player.O,
        some Player.O, some Player.X, none] 8 (some Player.X)) <
      countNone [some Player.X, some Player.O, some Player.X,
        some Player.X, some Player.O, some Player.O,
        some Player.O, some Player.X, none] ∧
    countNone [some Player.X, some Player.O, some Player.X,
        some Player.X, some Player.O, some Player.O,
        some Player.O, some Player.X, none] ≤ 9 :=
  ⟨(claim_C10 _ Player.X true ⊥ ⊤).1 3 (by decide),
   (claim_C10 _ Player.X true ⊥ ⊤).2.1 8 (by decide),
   (claim_C10 _ Player.X true ⊥ ⊤).2.2 (by decide)⟩

/-- C6: the available moves are iterated in ascending cell-index order, and
at a maximizing node the loop keeps the move with the strictly greatest score
seen so far (a later equal score never updates the chosen move), the
minimizing node symmetrically keeps the strictly least: on any window that
cannot prune, the loops coincide with the first-strict-argmax (resp. argmin)
fold over the observed child scores. -/
theorem claim_C6 :
    (∀ b : Board, List.Pairwise (· < ·) (available_moves b)) ∧
    (∀ (rec : Board → Player → ExtInt → ExtInt → ℤ × Option Nat) (b : Board)
      (p : Player) (ms : List Nat) (e : ExtInt) (bm : Option Nat) (a : ExtInt),
      a ≠ ⊤ →
      loopMax rec b p ms e bm a ⊤ =
        firstStrictMax (ms.zip (scoreSeqMax rec b p ⊤ ms a)) e bm) ∧
    (∀ (rec : Board → Player → ExtInt → ExtInt → ℤ × Option Nat) (b : Board)
      (p : Player) (ms : List Nat) (e : ExtInt) (bm : Option Nat) (β : ExtInt),
      β ≠ ⊥ →
      loopMin rec b p ms e bm ⊥ β =
        firstStrictMin (ms.zip (scoreSeqMin rec b p ⊥ ms β)) e bm) :=
  ⟨fun b => available_moves_sorted b,
   fun rec b p ms e bm a ha => loopMax_eq_firstStrictMax rec b p ms e bm a ha,
   fun rec b p ms e bm β hβ => loopMin_eq_firstStrictMin rec b p ms e bm β hβ⟩

/-- Witness for C6 at a concrete two-move loop over a one-empty board with a
constant child evaluator. -/
theorem claim_C6_witness :
    List.Pairwise (· < ·) (available_moves [some Player.X, none, none]) ∧
    loopMax (fun _ _ _ _ => ((0 : ℤ), none)) [none, none, none] Player.X
        [1, 2] ⊥ none ⊥ ⊤ =
      firstStrictMax ([1, 2].zip (scoreSeqMax (fun _ _ _ _ => ((0 : ℤ), none))
        [none, none, none] Player.X ⊤ [1, 2] ⊥)) ⊥ none ∧
    loopMin (fun _ _ _ _ => ((0 : ℤ), none)) [none, none, none] Player.O
        [1, 2] ⊤ none ⊥ ⊤ =
      firstStrictMin ([1, 2].zip (scoreSeqMin (fun _ _ _ _ => ((0 : ℤ), none))
        [none, none, none] Player.O ⊥ [1, 2] ⊤)) ⊤ none :=
  ⟨claim_C6.1 _,
   claim_C6.2.1 _ _ Player.X [1, 2] ⊥ none ⊥ (by decide),
   claim_C6.2.2 _ _ Player.O [1, 2] ⊤ none ⊤ (by decide)⟩

lemma game_over_false {b : Board} (hg : game_over b = false) :
    check_winner b = none ∧ is_board_full b = false := by
  rw [game_over, Bool.or_eq_false_iff] at hg
  exact ⟨Option.not_isSome_iff_eq_none.1 (by simp [hg.1]), hg.2⟩

lemma cell_none_of_all_none : ∀ (b : Board) (m : Nat),
    b.all (fun v => v.isNone) = true → m < b.length → cell b m = none := by
  intro b
  induction b with
  | nil => intro m _ h; simp at h
  | cons c rest ih =>
    intro m hall hm
    rw [List.all_cons, Bool.and_eq_true] at hall
    cases m with
    | zero =>
      cases c with
      | none => simp [cell]
      | some q => simp at hall
    | succ m =>
      have := ih m hall.2 (by simpa using hm)
      simpa [cell, List.getD] using this

lemma choice_useful_mem (seed : Nat) :
    choice useful_opens seed ∈ useful_opens ∧ choice useful_opens seed < 9 := by
  have h5 : seed % 5 < 5 := Nat.mod_lt _ (by norm_num)
  have hcase : seed % 5 = 0 ∨ seed % 5 = 1 ∨ seed % 5 = 2 ∨ seed % 5 = 3 ∨
      seed % 5 = 4 := by omega
  have hlen : useful_opens.length = 5 := rfl
  rcases hcase with h | h | h | h | h <;>
    simp [choice, useful_opens, hlen, h]

/-- C9: on every non-terminal 9-cell board, `best_move_for` returns a move
index that is one of the board's available moves (an empty cell) and is in
range 0-8, so applying it never overwrites an occupied cell. -/
theorem claim_C9 (b : Board) (ai : Player) (seed : Nat) (h9 : b.length = 9)
    (hg : game_over b = false) :
    ∃ m, best_move_for seed b ai = some m ∧ m ∈ available_moves b ∧ m < 9 := by
  obtain ⟨hw, hf⟩ := game_over_false hg
  cases hemp : b.all (fun v => v.isNone) with
  | true =>
    refine ⟨choice useful_opens seed, ?_, ?_, (choice_useful_mem seed).2⟩
    · rw [best_move_for, hemp, if_pos rfl]
    · rw [mem_available_moves]
      refine ⟨by rw [h9]; exact (choice_useful_mem seed).2, ?_⟩
      exact cell_none_of_all_none b _ hemp
        (by rw [h9]; exact (choice_useful_mem seed).2)
  | false =>
    have hfuel : countNone b ≤ b.length := countNone_le_length b
    cases hai : ai with
    | X =>
      obtain ⟨_, m, h1, h2, _⟩ := minimaxF_max_exact b.length b Player.X hfuel hw hf
      refine ⟨m, ?_, h2, by have := (mem_available_moves.1 h2).1; omega⟩
      rw [best_move_for, hemp]
      simpa using h1
    | O =>
      obtain ⟨_, m, h1, h2, _⟩ := minimaxF_min_exact b.length b Player.O hfuel hw hf
      refine ⟨m, ?_, h2, by have := (mem_available_moves.1 h2).1; omega⟩
      rw [best_move_for, hemp]
      simpa using h1

/-- Witness for C9 at a concrete non-terminal board with three empty cells. -/
theorem claim_C9_witness :
    ∃ m, best_move_for 0 [some Player.X, some Player.O, some Player.X,
        some Player.O, some Player.X, some Player.O, none, none, none]
        Player.X = some m ∧
      m ∈ available_moves [some Player.X, some Player.O, some Player.X,
        some Player.O, some Player.X, some Player.O, none, none, none] ∧
      m < 9 :=
  claim_C9 _ Player.X 0 (by decide) (by decide)

/-- C7 counterexample: the claim designates "four" opening cells, but the
source's designated set `[0, 2, 4, 6, 8]` (center and the four corners) has
five members, and on an empty board all five are possible return values. -/
theorem claim_C7_counterexample :
    useful_opens.length ≠ 4 ∧ useful_opens.length = 5 ∧
    best_move_for 0 new_board Player.X = some 0 ∧
    best_move_for 1 new_board Player.X = some 2 ∧
    best_move_for 2 new_board Player.X = some 4 ∧
    best_move_for 3 new_board Player.X = some 6 ∧
    best_move_for 4 new_board Player.X = some 8 := by
  exact ⟨by decide, rfl, rfl, rfl, rfl, rfl, rfl⟩

/-- C7 (amended: five designated cells): on an entirely empty board,
`best_move_for` bypasses the search and returns a random choice among the
five designated opening cells `{0, 2, 4, 6, 8}` (the center and the four
corners); every possible return value is a member of that set, and every
member is returned for some random outcome (nonzero probability under the
uniform seed model). -/
theorem claim_C7 (b : Board) (ai : Player) (seed : Nat)
    (hemp : b.all (fun v => v.isNone) = true) :
    (∃ c, best_move_for seed b ai = some c ∧ c ∈ useful_opens) ∧
    (∀ c ∈ useful_opens, ∃ s, best_move_for s b ai = some c) ∧
    useful_opens = [0, 2, 4, 6, 8] := by
  have hbm : ∀ s, best_move_for s b ai = some (choice useful_opens s) := by
    intro s
    rw [best_move_for, hemp, if_pos rfl]
  refine ⟨⟨choice useful_opens seed, hbm seed, (choice_useful_mem seed).1⟩, ?_, rfl⟩
  intro c hc
  fin_cases hc
  · exact ⟨0, by rw [hbm 0]; rfl⟩
  · exact ⟨1, by rw [hbm 1]; rfl⟩
  · exact ⟨2, by rw [hbm 2]; rfl⟩
  · exact ⟨3, by rw [hbm 3]; rfl⟩
  · exact ⟨4, by rw [hbm 4]; rfl⟩

/-- Witness for C7 at the empty board. -/
theorem claim_C7_witness :
    (∃ c, best_move_for 7 new_board Player.X = some c ∧ c ∈ useful_opens) ∧
    (∀ c ∈ useful_opens, ∃ s, best_move_for s new_board Player.X = some c) ∧
    useful_opens = [0, 2, 4, 6, 8] :=
  claim_C7 new_board Player.X 7 (by decide)

/-! Fuel congruence and child bounds for the unpruned value. -/

lemma foldl_max_congr {α : Type} [LinearOrder α] {f g : Nat → α} :
    ∀ (l : List Nat), (∀ m ∈ l, f m = g m) → ∀ (e : α),
      l.foldl (fun acc m => max acc (f m)) e = l.foldl (fun acc m => max acc (g m)) e := by
  intro l
  induction l with
  | nil => intro _ e; rfl
  | cons x r ih =>
    intro h e
    simp only [List.foldl_cons, h x (List.mem_cons_self x r)]
    exact ih (fun m hm => h m (List.mem_cons_of_mem x hm)) _

lemma foldl_min_congr {α : Type} [LinearOrder α] {f g : Nat → α} :
    ∀ (l : List Nat), (∀ m ∈ l, f m = g m) → ∀ (e : α),
      l.foldl (fun acc m => min acc (f m)) e = l.foldl (fun acc m => min acc (g m)) e := by
  intro l
  induction l with
  | nil => intro _ e; rfl
  | cons x r ih =>
    intro h e
    simp only [List.foldl_cons, h x (List.mem_cons_self x r)]
    exact ih (fun m hm => h m (List.mem_cons_of_mem x hm)) _

lemma minimaxUnpruned_fuel_congr : ∀ (fuel fuel' : Nat) (b : Board) (p : Player)
    (maxi : Bool), countNone b < fuel → countNone b < fuel' →
    minimaxUnpruned fuel b p maxi = minimaxUnpruned fuel' b p maxi := by
  intro fuel
  induction fuel with
  | zero => intro fuel' b p maxi h; omega
  | succ n ih =>
    intro fuel' b p maxi h h'
    cases fuel' with
    | zero => omega
    | succ n' =>
      cases hw : check_winner b with
      | some w =>
        cases w with
        | X => rw [minimaxUnpruned_succ_winX n p maxi hw,
            minimaxUnpruned_succ_winX n' p maxi hw]
        | O => rw [minimaxUnpruned_succ_winO n p maxi hw,
            minimaxUnpruned_succ_winO n' p maxi hw]
      | none =>
        cases hf : is_board_full b with
        | true => rw [minimaxUnpruned_succ_full n p maxi hw hf,
            minimaxUnpruned_succ_full n' p maxi hw hf]
        | false =>
          have hpos := countNone_pos_of_not_full hf
          cases maxi with
          | true =>
            rw [minimaxUnpruned_succ_max n p hw hf,
              minimaxUnpruned_succ_max n' p hw hf]
            refine foldl_max_congr (available_moves b) ?_ ⊥
            intro m hm
            have hchild := countNone_child p hm
            exact ih n' _ _ _ (by omega) (by omega)
          | false =>
            rw [minimaxUnpruned_succ_min n p hw hf,
              minimaxUnpruned_succ_min n' p hw hf]
            refine foldl_min_congr (available_moves b) ?_ ⊤
            intro m hm
            have hchild := countNone_child p hm
            exact ih n' _ _ _ (by omega) (by omega)

lemma le_foldl_max_of_mem {α : Type} [LinearOrder α] (f : Nat → α) :
    ∀ (l : List Nat) (e : α) (m : Nat), m ∈ l →
      f m ≤ l.foldl (fun acc x => max acc (f x)) e := by
  intro l
  induction l with
  | nil => intro e m h; cases h
  | cons x r ih =>
    intro e m h
    rcases List.mem_cons.1 h with rfl | h
    · exact le_trans (le_max_right e (f m)) (le_foldl_max f r (max e (f m)))
    · exact ih _ m h

lemma foldl_min_le_of_mem {α : Type} [LinearOrder α] (f : Nat → α) :
    ∀ (l : List Nat) (e : α) (m : Nat), m ∈ l →
      l.foldl (fun acc x => min acc (f x)) e ≤ f m := by
  intro l
  induction l with
  | nil => intro e m h; cases h
  | cons x r ih =>
    intro e m h
    rcases List.mem_cons.1 h with rfl | h
    · exact le_trans (foldl_min_le f r (min e (f m))) (min_le_right e (f m))
    · exact ih _ m h

/-- Each child value is at most the maximizing node's value. -/
lemma unpruned_child_le_max {b : Board} {m : Nat} (fuel : Nat) (p : Player)
    (hw : check_winner b = none) (hf : is_board_full b = false)
    (hm : m ∈ available_moves b) :
    minimaxUnpruned fuel (b.set m (some p)) (opponent p) false ≤
      minimaxUnpruned (fuel + 1) b p true := by
  rw [minimaxUnpruned_succ_max fuel p hw hf]
  exact le_foldl_max_of_mem
    (fun x => minimaxUnpruned fuel (b.set x (some p)) (opponent p) false)
    (available_moves b) ⊥ m hm

/-- Each child value is at least the minimizing node's value. -/
lemma unpruned_min_le_child {b : Board} {m : Nat} (fuel : Nat) (p : Player)
    (hw : check_winner b = none) (hf : is_board_full b = false)
    (hm : m ∈ available_moves b) :
    minimaxUnpruned (fuel + 1) b p false ≤
      minimaxUnpruned fuel (b.set m (some p)) (opponent p) true := by
  rw [minimaxUnpruned_succ_min fuel p hw hf]
  exact foldl_min_le_of_mem
    (fun x => minimaxUnpruned fuel (b.set x (some p)) (opponent p) true)
    (available_moves b) ⊤ m hm

/-! Winner uniqueness along play. -/

lemma check_winner_eq_of_unique {b : Board} {w : Player}
    (huw : ∀ w1 w2, hasWinner b w1 → hasWinner b w2 → w1 = w2)
    (hw : hasWinner b w) : check_winner b = some w := by
  cases hcw : check_winner b with
  | none => exact absurd hw ((check_winner_eq_none_iff b).1 hcw w)
  | some w' => rw [huw w' w (check_winner_some_hasWinner hcw) hw]

/-- A single placement on a winner-free board can complete lines only for the
placed mark. -/
lemma child_winner_eq {b : Board} {m : Nat} {p : Player}
    (hw : check_winner b = none) (hm : m < b.length) :
    ∀ w, hasWinner (b.set m (some p)) w → w = p := by
  intro w ⟨l, hl, hfill⟩
  obtain ⟨i, j, k⟩ := l
  obtain ⟨h1, h2, h3⟩ := hfill
  by_cases hc : i = m ∨ j = m ∨ k = m
  · rcases hc with rfl | rfl | rfl
    · rw [cell_set_self b i hm] at h1
      exact (Option.some_inj.1 h1).symm
    · rw [cell_set_self b j hm] at h2
      exact (Option.some_inj.1 h2).symm
    · rw [cell_set_self b k hm] at h3
      exact (Option.some_inj.1 h3).symm
  · push_neg at hc
    obtain ⟨hi, hj, hk⟩ := hc
    rw [cell_set_ne b m i (fun h => hi h.symm) _] at h1
    rw [cell_set_ne b m j (fun h => hj h.symm) _] at h2
    rw [cell_set_ne b m k (fun h => hk h.symm) _] at h3
    exact absurd ⟨(i, j, k), hl, h1, h2, h3⟩
      ((check_winner_eq_none_iff b).1 hw w)

lemma lineFilled_tripleEquiv {b : Board} {w : Player} {l1 l2 : Nat × Nat × Nat}
    (h : tripleEquiv l1 l2) : lineFilled b l1 w ↔ lineFilled b l2 w := by
  obtain ⟨i, j, k⟩ := l1
  rcases h with rfl | rfl | rfl | rfl | rfl | rfl <;>
    simp [lineFilled] <;> tauto

lemma tripleEquiv_map (σ : Nat → Nat) {l1 l2 : Nat × Nat × Nat}
    (h : tripleEquiv l1 l2) : tripleEquiv (mapLine σ l1) (mapLine σ l2) := by
  obtain ⟨i, j, k⟩ := l1
  rcases h with rfl | rfl | rfl | rfl | rfl | rfl <;>
    simp [tripleEquiv, mapLine]

lemma reindex_length (σ : Nat → Nat) (b : Board) : (reindex σ b).length = 9 := by
  simp [reindex]

lemma cell_reindex (σ : Nat → Nat) (b : Board) {i : Nat} (h : i < 9) :
    cell (reindex σ b) i = cell b (σ i) := by
  rw [cell, reindex, List.getD_eq_get?, List.get?_map, List.get?_range h]
  rfl

lemma board_ext9 {b1 b2 : Board} (h1 : b1.length = 9) (h2 : b2.length = 9)
    (h : ∀ i, i < 9 → cell b1 i = cell b2 i) : b1 = b2 := by
  apply List.ext_get?
  intro n
  by_cases hn : n < 9
  · have hc := h n hn
    rw [cell, cell, List.getD_eq_get?, List.getD_eq_get?] at hc
    cases hg1 : b1.get? n with
    | none =>
      rw [List.get?_eq_none] at hg1
      omega
    | some v1 =>
      cases hg2 : b2.get? n with
      | none =>
        rw [List.get?_eq_none] at hg2
        omega
      | some v2 =>
        rw [hg1, hg2] at hc
        simpa using hc
  · rw [List.get?_eq_none.2 (by omega), List.get?_eq_none.2 (by omega)]

lemma lines_lt9 : ∀ l ∈ WIN_LINES, l.1 < 9 ∧ l.2.1 < 9 ∧ l.2.2 < 9 := by decide

lemma hasWinner_reindex {σ : Nat → Nat} (hσ : GridSym σ) (b : Board) (w : Player) :
    hasWinner (reindex σ b) w ↔ hasWinner b w := by
  obtain ⟨hlt, hinv, hlines⟩ := hσ
  constructor
  · rintro ⟨l, hl, hfill⟩
    obtain ⟨h1, h2, h3⟩ := lines_lt9 l hl
    obtain ⟨i, j, k⟩ := l
    rw [lineFilled, cell_reindex σ b h1, cell_reindex σ b h2,
      cell_reindex σ b h3] at hfill
    obtain ⟨l2, hl2, heq⟩ := hlines (i, j, k) hl
    exact ⟨l2, hl2, (lineFilled_tripleEquiv heq).1 hfill⟩
  · rintro ⟨l, hl, hfill⟩
    obtain ⟨l2, hl2, heq⟩ := hlines l hl
    have heq2 := tripleEquiv_map σ heq
    obtain ⟨h1, h2, h3⟩ := lines_lt9 l hl
    have hms : mapLine σ (mapLine σ l) = l := by
      obtain ⟨i, j, k⟩ := l
      simp only [mapLine]
      rw [hinv i h1, hinv j h2, hinv k h3]
    rw [hms] at heq2
    refine ⟨l2, hl2, ?_⟩
    have hfill2 := (lineFilled_tripleEquiv heq2).1 hfill
    obtain ⟨h1', h2', h3'⟩ := lines_lt9 l2 hl2
    obtain ⟨i2, j2, k2⟩ := l2
    rw [lineFilled, cell_reindex σ b h1', cell_reindex σ b h2',
      cell_reindex σ b h3']
    exact hfill2

lemma is_board_full_iff_cells {b : Board} (h9 : b.length = 9) :
    is_board_full b = true ↔ ∀ i, i < 9 → cell b i ≠ none := by
  constructor
  · intro hf i hi hc
    have : i ∈ available_moves b := mem_available_moves.2 ⟨by omega, hc⟩
    rw [(available_moves_eq_nil_iff b).2 hf] at this
    cases this
  · intro h
    by_cases hf : is_board_full b = true
    · exact hf
    · have hne : available_moves b ≠ [] := by
        intro hnil
        exact hf ((available_moves_eq_nil_iff b).1 hnil)
      obtain ⟨m, hm⟩ := List.exists_mem_of_ne_nil _ hne
      obtain ⟨hlt, hc⟩ := mem_available_moves.1 hm
      exact absurd hc (h m (by omega))

lemma is_board_full_reindex {σ : Nat → Nat} (hσ : GridSym σ) {b : Board}
    (h9 : b.length = 9) : is_board_full (reindex σ b) = is_board_full b := by
  obtain ⟨hlt, hinv, _⟩ := hσ
  cases hf : is_board_full b with
  | true =>
    rw [(is_board_full_iff_cells (reindex_length σ b)).2 ?_]
    intro i hi
    rw [cell_reindex σ b hi]
    exact (is_board_full_iff_cells h9).1 hf (σ i) (hlt i hi)
  | false =>
    by_cases hr : is_board_full (reindex σ b) = true
    · exfalso
      have hcells := (is_board_full_iff_cells (reindex_length σ b)).1 hr
      have : ∀ i, i < 9 → cell b i ≠ none := by
        intro i hi
        have := hcells (σ i) (hlt i hi)
        rw [cell_reindex σ b (hlt i hi), hinv i hi] at this
        exact this
      rw [(is_board_full_iff_cells h9).2 this] at hf
      cases hf
    · simpa using hr

lemma mem_avail_reindex {σ : Nat → Nat} (hσ : GridSym σ) {b : Board}
    (h9 : b.length = 9) (m : Nat) :
    m ∈ available_moves (reindex σ b) ↔ m < 9 ∧ σ m ∈ available_moves b := by
  obtain ⟨hlt, hinv, _⟩ := hσ
  rw [mem_available_moves, reindex_length σ b]
  constructor
  · rintro ⟨hm, hc⟩
    rw [cell_reindex σ b hm] at hc
    exact ⟨hm, mem_available_moves.2 ⟨by rw [h9]; exact hlt m hm, hc⟩⟩
  · rintro ⟨hm, hav⟩
    obtain ⟨_, hc⟩ := mem_available_moves.1 hav
    exact ⟨hm, by rw [cell_reindex σ b hm]; exact hc⟩

lemma avail_reindex_perm {σ : Nat → Nat} (hσ : GridSym σ) {b : Board}
    (h9 : b.length = 9) :
    (available_moves (reindex σ b)).Perm ((available_moves b).map σ) := by
  have hlt := hσ.1
  have hinv := hσ.2.1
  have hnd1 : (available_moves (reindex σ b)).Nodup :=
    (available_moves_sorted _).nodup
  have hnd2 : ((available_moves b).map σ).Nodup := by
    refine List.Nodup.map_on ?_ (available_moves_sorted b).nodup
    intro x hx y hy hxy
    have hx9 : x < 9 := by have := (mem_available_moves.1 hx).1; omega
    have hy9 : y < 9 := by have := (mem_available_moves.1 hy).1; omega
    have : σ (σ x) = σ (σ y) := by rw [hxy]
    rwa [hinv x hx9, hinv y hy9] at this
  rw [List.perm_ext_iff_of_nodup hnd1 hnd2]
  intro m
  rw [mem_avail_reindex hσ h9 m]
  constructor
  · rintro ⟨hm, hav⟩
    exact List.mem_map.2 ⟨σ m, hav, hinv m hm⟩
  · intro hm
    obtain ⟨m', hm', rfl⟩ := List.mem_map.1 hm
    have hm'9 : m' < 9 := by have := (mem_available_moves.1 hm').1; omega
    refine ⟨hlt m' hm'9, ?_⟩
    rw [hinv m' hm'9]
    exact hm'

lemma reindex_set {σ : Nat → Nat} (hσ : GridSym σ) {b : Board}
    (h9 : b.length = 9) {m : Nat} (hm : m < 9) (x : Option Player) :
    (reindex σ b).set m x = reindex σ (b.set (σ m) x) := by
  obtain ⟨hlt, hinv, _⟩ := hσ
  have hσm : σ m < 9 := hlt m hm
  refine board_ext9 (by rw [List.length_set]; exact reindex_length σ b)
    (reindex_length σ _) ?_
  intro i hi
  by_cases him : i = m
  · subst him
    rw [cell_set_self _ i (by rw [reindex_length σ b]; exact hi)]
    rw [cell_reindex σ _ hi, cell_set_self b (σ i) (by omega)]
  · rw [cell_set_ne _ m i (fun h => him h.symm) x, cell_reindex σ b hi,
      cell_reindex σ _ hi]
    have hne : σ i ≠ σ m := by
      intro h
      have : σ (σ i) = σ (σ m) := by rw [h]
      rw [hinv i hi, hinv m hm] at this
      exact him this
    rw [cell_set_ne b (σ m) (σ i) (fun h => hne h.symm) x]

lemma unpruned_reindex {σ : Nat → Nat} (hσ : GridSym σ) :
    ∀ (fuel : Nat) (b : Board) (p : Player) (maxi : Bool), b.length = 9 →
    (∀ w1 w2, hasWinner b w1 → hasWinner b w2 → w1 = w2) →
    minimaxUnpruned fuel (reindex σ b) p maxi = minimaxUnpruned fuel b p maxi := by
  intro fuel
  induction fuel with
  | zero => intro b p maxi _ _; rfl
  | succ n ih =>
    intro b p maxi h9 huw
    cases hw : check_winner b with
    | some w =>
      have hrw : check_winner (reindex σ b) = some w := by
        refine check_winner_eq_of_unique ?_ ?_
        · intro w1 w2 h1 h2
          exact huw w1 w2 ((hasWinner_reindex hσ b w1).1 h1)
            ((hasWinner_reindex hσ b w2).1 h2)
        · exact (hasWinner_reindex hσ b w).2 (check_winner_some_hasWinner hw)
      cases w with
      | X => rw [minimaxUnpruned_succ_winX n p maxi hrw,
          minimaxUnpruned_succ_winX n p maxi hw]
      | O => rw [minimaxUnpruned_succ_winO n p maxi hrw,
          minimaxUnpruned_succ_winO n p maxi hw]
    | none =>
      have hrw : check_winner (reindex σ b) = none := by
        rw [check_winner_eq_none_iff]
        intro w hwin
        exact (check_winner_eq_none_iff b).1 hw w ((hasWinner_reindex hσ b w).1 hwin)
      cases hf : is_board_full b with
      | true =>
        have hrf : is_board_full (reindex σ b) = true := by
          rw [is_board_full_reindex hσ h9, hf]
        rw [minimaxUnpruned_succ_full n p maxi hrw hrf,
          minimaxUnpruned_succ_full n p maxi hw hf]
      | false =>
        have hrf : is_board_full (reindex σ b) = false := by
          rw [is_board_full_reindex hσ h9, hf]
        have hchild : ∀ m ∈ available_moves (reindex σ b), ∀ mm,
            minimaxUnpruned n ((reindex σ b).set m (some p)) (opponent p) mm =
            minimaxUnpruned n (b.set (σ m) (some p)) (opponent p) mm := by
          intro m hm mm
          have hm9 : m < 9 := by
            have := (mem_available_moves.1 hm).1
            rw [reindex_length σ b] at this
            exact this
          have hσm9 : σ m < 9 := hσ.1 m hm9
          rw [reindex_set hσ h9 hm9 (some p)]
          refine ih (b.set (σ m) (some p)) (opponent p) mm
            (by rw [List.length_set]; exact h9) ?_
          intro w1 w2 h1 h2
          have e1 := child_winner_eq hw (by omega) w1 h1
          have e2 := child_winner_eq hw (by omega) w2 h2
          rw [e1, e2]
        have hperm : ((available_moves (reindex σ b)).map σ).Perm (available_moves b) := by
          have h1 := (avail_reindex_perm hσ h9).map σ
          rw [List.map_map] at h1
          have h2 : (available_moves b).map (σ ∘ σ) = available_moves b := by
            have : ∀ x ∈ available_moves b, (σ ∘ σ) x = x := by
              intro x hx
              have hx9 : x < 9 := by
                have := (mem_available_moves.1 hx).1
                omega
              exact hσ.2.1 x hx9
            rw [List.map_congr_left this]
            simp
          rw [h2] at h1
          exact h1
        cases maxi with
        | true =>
          rw [minimaxUnpruned_succ_max n p hrw hrf, minimaxUnpruned_succ_max n p hw hf]
          rw [foldl_max_congr (available_moves (reindex σ b))
            (fun m hm => hchild m hm false) ⊥]
          rw [show (fun acc m => max acc
              (minimaxUnpruned n (b.set (σ m) (some p)) (opponent p) false)) =
            (fun acc m => max acc
              ((fun m' => minimaxUnpruned n (b.set m' (some p)) (opponent p) false) (σ m)))
            from rfl]
          rw [← List.foldl_map σ
            (fun acc m' => max acc (minimaxUnpruned n (b.set m' (some p)) (opponent p) false))]
          letI : RightCommutative
            (fun acc m' => max acc
              (minimaxUnpruned n (b.set m' (some p)) (opponent p) false)) :=
            ⟨fun a x y => sup_right_comm a _ _⟩
          exact hperm.foldl_eq ⊥
        | false =>
          rw [minimaxUnpruned_succ_min n p hrw hrf, minimaxUnpruned_succ_min n p hw hf]
          rw [foldl_min_congr (available_moves (reindex σ b))
            (fun m hm => hchild m hm true) ⊤]
          rw [show (fun acc m => min acc
              (minimaxUnpruned n (b.set (σ m) (some p)) (opponent p) true)) =
            (fun acc m => min acc
              ((fun m' => minimaxUnpruned n (b.set m' (some p)) (opponent p) true) (σ m)))
            from rfl]
          rw [← List.foldl_map σ
            (fun acc m' => min acc (minimaxUnpruned n (b.set m' (some p)) (opponent p) true))]
          letI : RightCommutative
            (fun acc m' => min acc
              (minimaxUnpruned n (b.set m' (some p)) (opponent p) true)) :=
            ⟨fun a x y => inf_right_comm a _ _⟩
          exact hperm.foldl_eq ⊤

lemma opponent_opponent : ∀ p, opponent (opponent p) = p := by
  intro p
  cases p <;> rfl

lemma eneg_bot : eneg ⊥ = ⊤ := rfl

lemma eneg_top : eneg ⊤ = ⊥ := rfl

lemma eneg_ofInt (n : ℤ) : eneg (ofInt n) = ofInt (-n) := rfl

lemma extint_cases (x : ExtInt) : x = ⊥ ∨ x = ⊤ ∨ ∃ k : ℤ, x = ofInt k := by
  cases x with
  | none => exact Or.inl rfl
  | some y =>
    cases y with
    | top => exact Or.inr (Or.inl rfl)
    | coe k => exact Or.inr (Or.inr ⟨k, rfl⟩)

lemma ofInt_min (m n : ℤ) : ofInt (min m n) = min (ofInt m) (ofInt n) := by
  rw [ofInt, ofInt, ofInt, WithTop.coe_min, WithBot.coe_min]

lemma ofInt_max (m n : ℤ) : ofInt (max m n) = max (ofInt m) (ofInt n) := by
  rw [ofInt, ofInt, ofInt, WithTop.coe_max, WithBot.coe_max]

lemma eneg_min (x y : ExtInt) : eneg (min x y) = max (eneg x) (eneg y) := by
  rcases extint_cases x with rfl | rfl | ⟨m, rfl⟩ <;>
    rcases extint_cases y with rfl | rfl | ⟨n, rfl⟩ <;>
    simp [eneg_bot, eneg_top, eneg_ofInt] <;>
    rw [← ofInt_min, eneg_ofInt, neg_inf, ofInt_max]

lemma eneg_max (x y : ExtInt) : eneg (max x y) = min (eneg x) (eneg y) := by
  rcases extint_cases x with rfl | rfl | ⟨m, rfl⟩ <;>
    rcases extint_cases y with rfl | rfl | ⟨n, rfl⟩ <;>
    simp [eneg_bot, eneg_top, eneg_ofInt] <;>
    rw [← ofInt_max, eneg_ofInt, neg_sup, ofInt_min]

lemma cell_swapBoard (b : Board) (i : Nat) :
    cell (swapBoard b) i = Option.map opponent (cell b i) := by
  rw [cell, cell, List.getD_eq_get?, List.getD_eq_get?, swapBoard, List.get?_map]
  cases b.get? i <;> rfl

lemma scanLines_swap (b : Board) : ∀ L,
    scanLines (swapBoard b) L = Option.map opponent (scanLines b L) := by
  have hmap : ∀ x w', Option.map opponent (cell b x) = some w' ↔
      cell b x = some (opponent w') := by
    intro x w'
    rw [Option.map_eq_some']
    constructor
    · rintro ⟨u, hu, hop⟩
      rw [hu, ← hop, opponent_opponent]
    · intro h
      exact ⟨opponent w', h, opponent_opponent w'⟩
  intro L
  induction L with
  | nil => rfl
  | cons l rest ih =>
    obtain ⟨i, j, k⟩ := l
    cases hci : cell b i with
    | none =>
      have h1 : cell (swapBoard b) i = none := by
        rw [cell_swapBoard b i, hci]
        rfl
      rw [scanLines, scanLines, hci, h1]
      exact ih
    | some w =>
      have h1 : cell (swapBoard b) i = some (opponent w) := by
        rw [cell_swapBoard b i, hci]
        rfl
      rw [scanLines, scanLines, hci, h1]
      show (if cell (swapBoard b) j = some (opponent w) ∧
          cell (swapBoard b) k = some (opponent w)
        then some (opponent w) else scanLines (swapBoard b) rest) =
        Option.map opponent (if cell b j = some w ∧ cell b k = some w
          then some w else scanLines b rest)
      have hj : cell (swapBoard b) j = some (opponent w) ↔ cell b j = some w := by
        rw [cell_swapBoard b j, hmap j (opponent w), opponent_opponent]
      have hk : cell (swapBoard b) k = some (opponent w) ↔ cell b k = some w := by
        rw [cell_swapBoard b k, hmap k (opponent w), opponent_opponent]
      by_cases hcond : cell b j = some w ∧ cell b k = some w
      · rw [if_pos ⟨hj.2 hcond.1, hk.2 hcond.2⟩, if_pos hcond]
        rfl
      · rw [if_neg (fun hc => hcond ⟨hj.1 hc.1, hk.1 hc.2⟩), if_neg hcond]
        exact ih

lemma check_winner_swap (b : Board) :
    check_winner (swapBoard b) = Option.map opponent (check_winner b) :=
  scanLines_swap b WIN_LINES

lemma is_board_full_swap (b : Board) :
    is_board_full (swapBoard b) = is_board_full b := by
  rw [is_board_full, is_board_full, swapBoard, List.all_map]
  congr 1
  funext c
  exact Option.isSome_map'

lemma availAux_swap (b : Board) : ∀ i, availAux i (swapBoard b) = availAux i b := by
  induction b with
  | nil => intro i; rfl
  | cons c rest ih =>
    intro i
    cases c with
    | none =>
      show i :: availAux (i + 1) (swapBoard rest) = i :: availAux (i + 1) rest
      rw [ih (i + 1)]
    | some q =>
      show availAux (i + 1) (swapBoard rest) = availAux (i + 1) rest
      exact ih (i + 1)

lemma available_moves_swap (b : Board) :
    available_moves (swapBoard b) = available_moves b := availAux_swap b 0

lemma swapBoard_set (b : Board) (m : Nat) (p : Player) :
    (swapBoard b).set m (some p) = swapBoard (b.set m (some (opponent p))) := by
  rw [swapBoard, swapBoard, List.map_set]
  simp [opponent_opponent]

lemma eneg_foldl_min (g : Nat → ExtInt) :
    ∀ (l : List Nat) (e : ExtInt),
      eneg (l.foldl (fun acc m => min acc (g m)) e) =
        l.foldl (fun acc m => max acc (eneg (g m))) (eneg e) := by
  intro l
  induction l with
  | nil => intro e; rfl
  | cons x rest ih =>
    intro e
    simp only [List.foldl_cons]
    rw [ih (min e (g x)), eneg_min]

lemma eneg_foldl_max (g : Nat → ExtInt) :
    ∀ (l : List Nat) (e : ExtInt),
      eneg (l.foldl (fun acc m => max acc (g m)) e) =
        l.foldl (fun acc m => min acc (eneg (g m))) (eneg e) := by
  intro l
  induction l with
  | nil => intro e; rfl
  | cons x rest ih =>
    intro e
    simp only [List.foldl_cons]
    rw [ih (max e (g x)), eneg_max]

lemma unpruned_swap : ∀ (fuel : Nat) (b : Board) (p : Player) (maxi : Bool),
    minimaxUnpruned fuel (swapBoard b) p maxi =
      eneg (minimaxUnpruned fuel b (opponent p) (!maxi)) := by
  intro fuel
  induction fuel with
  | zero =>
    intro b p maxi
    show ofInt 0 = eneg (ofInt 0)
    rw [eneg_ofInt, neg_zero]
  | succ n ih =>
    intro b p maxi
    cases hw : check_winner b with
    | some w =>
      have hsw : check_winner (swapBoard b) = some (opponent w) := by
        rw [check_winner_swap, hw]
        rfl
      cases w with
      | X =>
        rw [minimaxUnpruned_succ_winO n p maxi hsw,
          minimaxUnpruned_succ_winX n (opponent p) (!maxi) hw, eneg_ofInt]
      | O =>
        rw [minimaxUnpruned_succ_winX n p maxi hsw,
          minimaxUnpruned_succ_winO n (opponent p) (!maxi) hw, eneg_ofInt]
        norm_num
    | none =>
      have hsw : check_winner (swapBoard b) = none := by
        rw [check_winner_swap, hw]
        rfl
      cases hf : is_board_full b with
      | true =>
        have hsf : is_board_full (swapBoard b) = true := by
          rw [is_board_full_swap, hf]
        rw [minimaxUnpruned_succ_full n p maxi hsw hsf,
          minimaxUnpruned_succ_full n (opponent p) (!maxi) hw hf, eneg_ofInt,
          neg_zero]
      | false =>
        have hsf : is_board_full (swapBoard b) = false := by
          rw [is_board_full_swap, hf]
        cases maxi with
        | true =>
          rw [minimaxUnpruned_succ_max n p hsw hsf,
            show (!true) = false from rfl,
            minimaxUnpruned_succ_min n (opponent p) hw hf]
          rw [available_moves_swap b]
          rw [eneg_foldl_min
            (fun m => minimaxUnpruned n (b.set m (some (opponent p)))
              (opponent (opponent p)) true)
            (available_moves b) ⊤]
          rw [show eneg ⊤ = (⊥ : ExtInt) from rfl]
          refine foldl_max_congr (available_moves b) ?_ ⊥
          intro m hm
          rw [swapBoard_set b m p, ih (b.set m (some (opponent p))) (opponent p) false]
          rfl
        | false =>
          rw [minimaxUnpruned_succ_min n p hsw hsf,
            show (!false) = true from rfl,
            minimaxUnpruned_succ_max n (opponent p) hw hf]
          rw [available_moves_swap b]
          rw [eneg_foldl_max
            (fun m => minimaxUnpruned n (b.set m (some (opponent p)))
              (opponent (opponent p)) false)
            (available_moves b) ⊥]
          rw [show eneg ⊥ = (⊤ : ExtInt) from rfl]
          refine foldl_min_congr (available_moves b) ?_ ⊤
          intro m hm
          rw [swapBoard_set b m p, ih (b.set m (some (opponent p))) (opponent p) true]
          rfl

lemma gridSym_sigH : GridSym sigH := by decide

lemma gridSym_sigV : GridSym sigV := by decide

lemma gridSym_sigD : GridSym sigD := by decide

/-- Winner uniqueness on a board with a single mark placed on the empty board. -/
lemma uw_open (m : Nat) (hm : m < 9) (p : Player) :
    ∀ w1 w2, hasWinner (new_board.set m (some p)) w1 →
      hasWinner (new_board.set m (some p)) w2 → w1 = w2 := by
  intro w1 w2 h1 h2
  have hwn : check_winner new_board = none := by decide
  have hlen : (new_board : Board).length = 9 := by decide
  rw [child_winner_eq hwn (by omega) w1 h1, child_winner_eq hwn (by omega) w2 h2]

/-- Transfer of the value of an opening board along a grid symmetry. -/
lemma val_open_transfer {σ : Nat → Nat} (hσ : GridSym σ) {m m' : Nat}
    (hm' : m' < 9)
    (hs : reindex σ (new_board.set m' (some Player.X)) =
      new_board.set m (some Player.X)) :
    minimaxUnpruned 10 (new_board.set m (some Player.X)) Player.O false =
      minimaxUnpruned 10 (new_board.set m' (some Player.X)) Player.O false := by
  rw [← hs]
  exact unpruned_reindex hσ 10 _ Player.O false (by simp [new_board]) (uw_open m' hm' Player.X)

/-! Concrete opening values via scout-window searches and symmetry. -/

set_option maxRecDepth 400000 in
lemma scout_U0 : (minimaxF 10 (new_board.set 0 (some Player.X)) Player.O false
    (ofInt 0) (ofInt 1)).1 = 0 := rfl

set_option maxRecDepth 400000 in
lemma scout_U1 : (minimaxF 10 (new_board.set 1 (some Player.X)) Player.O false
    (ofInt 0) (ofInt 1)).1 = 0 := rfl

set_option maxRecDepth 400000 in
lemma scout_U4 : (minimaxF 10 (new_board.set 4 (some Player.X)) Player.O false
    (ofInt 0) (ofInt 1)).1 = 0 := rfl

set_option maxRecDepth 400000 in
lemma scout_L0 : (minimaxF 10 (new_board.set 0 (some Player.X)) Player.O false
    (ofInt (-1)) (ofInt 0)).1 = 0 := rfl

set_option maxRecDepth 400000 in
lemma scout_L4 : (minimaxF 10 (new_board.set 4 (some Player.X)) Player.O false
    (ofInt (-1)) (ofInt 0)).1 = 0 := rfl

lemma val_U0 : minimaxUnpruned 10 (new_board.set 0 (some Player.X)) Player.O false ≤ ofInt 0 := by
  have km := minimax_km 10 (new_board.set 0 (some Player.X)) Player.O false
    (ofInt 0) (ofInt 1) (by decide) (by decide)
  rw [scout_U0] at km
  exact km.1 (le_refl _)

lemma val_U1 : minimaxUnpruned 10 (new_board.set 1 (some Player.X)) Player.O false ≤ ofInt 0 := by
  have km := minimax_km 10 (new_board.set 1 (some Player.X)) Player.O false
    (ofInt 0) (ofInt 1) (by decide) (by decide)
  rw [scout_U1] at km
  exact km.1 (le_refl _)

lemma val_U4 : minimaxUnpruned 10 (new_board.set 4 (some Player.X)) Player.O false ≤ ofInt 0 := by
  have km := minimax_km 10 (new_board.set 4 (some Player.X)) Player.O false
    (ofInt 0) (ofInt 1) (by decide) (by decide)
  rw [scout_U4] at km
  exact km.1 (le_refl _)

lemma val_L0 : ofInt 0 ≤ minimaxUnpruned 10 (new_board.set 0 (some Player.X)) Player.O false := by
  have km := minimax_km 10 (new_board.set 0 (some Player.X)) Player.O false
    (ofInt (-1)) (ofInt 0) (by decide) (by decide)
  rw [scout_L0] at km
  exact km.2.1 (le_refl _)

lemma val_L4 : ofInt 0 ≤ minimaxUnpruned 10 (new_board.set 4 (some Player.X)) Player.O false := by
  have km := minimax_km 10 (new_board.set 4 (some Player.X)) Player.O false
    (ofInt (-1)) (ofInt 0) (by decide) (by decide)
  rw [scout_L4] at km
  exact km.2.1 (le_refl _)

lemma tr2 : minimaxUnpruned 10 (new_board.set 2 (some Player.X)) Player.O false =
    minimaxUnpruned 10 (new_board.set 0 (some Player.X)) Player.O false :=
  val_open_transfer gridSym_sigH (by norm_num) (by decide)

lemma tr6 : minimaxUnpruned 10 (new_board.set 6 (some Player.X)) Player.O false =
    minimaxUnpruned 10 (new_board.set 0 (some Player.X)) Player.O false :=
  val_open_transfer gridSym_sigV (by norm_num) (by decide)

lemma tr8 : minimaxUnpruned 10 (new_board.set 8 (some Player.X)) Player.O false =
    minimaxUnpruned 10 (new_board.set 2 (some Player.X)) Player.O false :=
  val_open_transfer gridSym_sigV (by norm_num) (by decide)

lemma tr3 : minimaxUnpruned 10 (new_board.set 3 (some Player.X)) Player.O false =
    minimaxUnpruned 10 (new_board.set 1 (some Player.X)) Player.O false :=
  val_open_transfer gridSym_sigD (by norm_num) (by decide)

lemma tr5 : minimaxUnpruned 10 (new_board.set 5 (some Player.X)) Player.O false =
    minimaxUnpruned 10 (new_board.set 3 (some Player.X)) Player.O false :=
  val_open_transfer gridSym_sigH (by norm_num) (by decide)

lemma tr7 : minimaxUnpruned 10 (new_board.set 7 (some Player.X)) Player.O false =
    minimaxUnpruned 10 (new_board.set 1 (some Player.X)) Player.O false :=
  val_open_transfer gridSym_sigV (by norm_num) (by decide)

lemma val_U_all : ∀ m, m < 9 →
    minimaxUnpruned 10 (new_board.set m (some Player.X)) Player.O false ≤ ofInt 0 := by
  intro m hm
  interval_cases m
  · exact val_U0
  · exact val_U1
  · rw [tr2]; exact val_U0
  · rw [tr3]; exact val_U1
  · exact val_U4
  · rw [tr5, tr3]; exact val_U1
  · rw [tr6]; exact val_U0
  · rw [tr7]; exact val_U1
  · rw [tr8, tr2]; exact val_U0

lemma val_open_zero : ∀ c ∈ useful_opens,
    minimaxUnpruned 10 (new_board.set c (some Player.X)) Player.O false = ofInt 0 := by
  intro c hc
  fin_cases hc
  · exact le_antisymm val_U0 val_L0
  · rw [tr2]; exact le_antisymm val_U0 val_L0
  · exact le_antisymm val_U4 val_L4
  · rw [tr6]; exact le_antisymm val_U0 val_L0
  · rw [tr8, tr2]; exact le_antisymm val_U0 val_L0

/-! Values of the empty board and opening boards, in `gval` form. -/

lemma cell_new_board (i : Nat) : cell new_board i = none := by
  have : ∀ (k : Nat) (j : Nat), cell (List.replicate k (none : Option Player)) j = none := by
    intro k
    induction k with
    | zero => intro j; cases j <;> rfl
    | succ k ih =>
      intro j
      cases j with
      | zero => rfl
      | succ j => simpa [cell, List.getD] using ih j
  exact this 9 i

lemma length_set_new (c : Nat) (x : Option Player) :
    (new_board.set c x).length = 9 := by
  simp [new_board]

lemma gval_openX (c : Nat) :
    gval (new_board.set c (some Player.X)) Player.O =
      minimaxUnpruned 10 (new_board.set c (some Player.X)) Player.O false := by
  unfold gval
  rw [length_set_new]
  rfl

lemma gval_openO (c : Nat) :
    gval (new_board.set c (some Player.O)) Player.X =
      minimaxUnpruned 10 (new_board.set c (some Player.O)) Player.X true := by
  unfold gval
  rw [length_set_new]
  rfl

lemma gval_emptyX_unfold :
    gval new_board Player.X = minimaxUnpruned 10 new_board Player.X true := by
  unfold gval
  rfl

lemma gval_emptyO_unfold :
    gval new_board Player.O = minimaxUnpruned 10 new_board Player.O false := by
  unfold gval
  rfl

lemma foldl_max_le_of {α : Type} [LinearOrder α] (f : Nat → α) :
    ∀ (l : List Nat) (e c : α), e ≤ c → (∀ m ∈ l, f m ≤ c) →
      l.foldl (fun acc m => max acc (f m)) e ≤ c := by
  intro l
  induction l with
  | nil => intro e c he _; simpa using he
  | cons x r ih =>
    intro e c he h
    exact ih _ _ (max_le he (h x (List.mem_cons_self x r)))
      (fun m hm => h m (List.mem_cons_of_mem x hm))

lemma gval_empty_X : gval new_board Player.X = ofInt 0 := by
  rw [gval_emptyX_unfold]
  have hw : check_winner new_board = none := by decide
  have hf : is_board_full new_board = false := by decide
  rw [minimaxUnpruned_succ_max 9 Player.X hw hf]
  have hchild : ∀ m ∈ available_moves new_board,
      minimaxUnpruned 9 (new_board.set m (some Player.X)) Player.O false =
      minimaxUnpruned 10 (new_board.set m (some Player.X)) Player.O false := by
    intro m hm
    have := countNone_child Player.X hm
    have h9 : countNone new_board = 9 := by decide
    exact minimaxUnpruned_fuel_congr 9 10 _ _ _ (by omega) (by omega)
  refine le_antisymm ?_ ?_
  · refine foldl_max_le_of _ (available_moves new_board) ⊥ (ofInt 0) bot_le ?_
    intro m hm
    rw [show opponent Player.X = Player.O from rfl, hchild m hm]
    exact val_U_all m (by have := (mem_available_moves.1 hm).1; simpa [new_board] using this)
  · have h0 : (0 : Nat) ∈ available_moves new_board := by decide
    have hle := le_foldl_max_of_mem
      (fun m => minimaxUnpruned 9 (new_board.set m (some Player.X))
        (opponent Player.X) false)
      (available_moves new_board) ⊥ 0 h0
    refine le_trans ?_ hle
    show ofInt 0 ≤ minimaxUnpruned 9 (new_board.set 0 (some Player.X)) (opponent Player.X) false
    rw [show opponent Player.X = Player.O from rfl, hchild 0 h0]
    exact val_L0

lemma swap_new_board : swapBoard new_board = new_board := by decide

lemma gval_empty_O : gval new_board Player.O = ofInt 0 := by
  rw [gval_emptyO_unfold]
  have h1 : minimaxUnpruned 10 (swapBoard new_board) Player.O false =
      eneg (minimaxUnpruned 10 new_board Player.X true) :=
    unpruned_swap 10 new_board Player.O false
  rw [swap_new_board] at h1
  rw [h1, ← gval_emptyX_unfold, gval_empty_X, eneg_ofInt, neg_zero]

lemma set_openO_swap (c : Nat) :
    new_board.set c (some Player.O) = swapBoard (new_board.set c (some Player.X)) := by
  have h := swapBoard_set new_board c Player.O
  rw [swap_new_board] at h
  exact h

lemma val_openO_zero : ∀ c ∈ useful_opens,
    gval (new_board.set c (some Player.O)) Player.X = ofInt 0 := by
  intro c hc
  rw [gval_openO, set_openO_swap c, unpruned_swap 10 _ Player.X true,
    show opponent Player.X = Player.O from rfl,
    show (!true) = false from rfl, val_open_zero c hc, eneg_ofInt, neg_zero]

/-! The game-play layer: engine moves preserve the game value, opponent
moves cannot move it past the engine, and alternating play to completion
turns these into outcome bounds. -/

lemma ofInt_inj {m n : ℤ} : ofInt m = ofInt n ↔ m = n := by
  constructor
  · intro h
    have h1 := ofInt_le_ofInt.1 h.le
    have h2 := ofInt_le_ofInt.1 h.ge
    omega
  · rintro rfl; rfl

lemma gval_X (b : Board) :
    gval b Player.X = minimaxUnpruned (b.length + 1) b Player.X true := rfl

lemma gval_O (b : Board) :
    gval b Player.O = minimaxUnpruned (b.length + 1) b Player.O false := rfl

lemma gval_terminal (b : Board) (p : Player) (hg : game_over b = true) :
    gval b p = ofInt (outcomeScore b) := by
  unfold gval
  cases hw : check_winner b with
  | some w =>
    cases w with
    | X =>
      rw [minimaxUnpruned_succ_winX b.length p _ hw]
      simp [outcomeScore, hw]
    | O =>
      rw [minimaxUnpruned_succ_winO b.length p _ hw]
      simp [outcomeScore, hw]
  | none =>
    have hf : is_board_full b = true := by
      rw [game_over, hw] at hg
      simpa using hg
    rw [minimaxUnpruned_succ_full b.length p _ hw hf]
    simp [outcomeScore, hw]

lemma gval_move_X_le {b : Board} {m : Nat} (hg : game_over b = false)
    (hm : m ∈ available_moves b) :
    gval (b.set m (some Player.X)) Player.O ≤ gval b Player.X := by
  obtain ⟨hw, hf⟩ := game_over_false hg
  rw [gval_O, gval_X, List.length_set]
  have hchild := countNone_child Player.X hm
  have hcn : countNone b ≤ b.length := countNone_le_length b
  rw [minimaxUnpruned_fuel_congr (b.length + 1) b.length (b.set m (some Player.X))
    Player.O false (by omega) (by omega)]
  exact unpruned_child_le_max b.length Player.X hw hf hm

lemma gval_move_O_ge {b : Board} {m : Nat} (hg : game_over b = false)
    (hm : m ∈ available_moves b) :
    gval b Player.O ≤ gval (b.set m (some Player.O)) Player.X := by
  obtain ⟨hw, hf⟩ := game_over_false hg
  rw [gval_O, gval_X, List.length_set]
  have hchild := countNone_child Player.O hm
  have hcn : countNone b ≤ b.length := countNone_le_length b
  rw [minimaxUnpruned_fuel_congr (b.length + 1) b.length (b.set m (some Player.O))
    Player.X true (by omega) (by omega)]
  exact unpruned_min_le_child b.length Player.O hw hf hm

lemma all_none_eq_new {b : Board} (h9 : b.length = 9)
    (hall : b.all (fun v => v.isNone) = true) : b = new_board := by
  refine board_ext9 h9 (by decide) ?_
  intro i hi
  rw [cell_none_of_all_none b i hall (by omega), cell_new_board]

lemma engine_step_X (seed : Nat) (b : Board) (h9 : b.length = 9)
    (hg : game_over b = false) :
    ∃ m, best_move_for seed b Player.X = some m ∧ m ∈ available_moves b ∧
      gval (b.set m (some Player.X)) Player.O = gval b Player.X := by
  obtain ⟨hw, hf⟩ := game_over_false hg
  cases hemp : b.all (fun v => v.isNone) with
  | true =>
    have hb : b = new_board := all_none_eq_new h9 hemp
    subst hb
    refine ⟨choice useful_opens seed, ?_, ?_, ?_⟩
    · rw [best_move_for, hemp, if_pos rfl]
    · rw [mem_available_moves]
      exact ⟨by rw [h9]; exact (choice_useful_mem seed).2, cell_new_board _⟩
    · rw [gval_openX, val_open_zero _ (choice_useful_mem seed).1, gval_empty_X]
  | false =>
    obtain ⟨hsc, m, h1, h2, h3⟩ := minimaxF_max_exact b.length b Player.X
      (countNone_le_length b) hw hf
    refine ⟨m, ?_, h2, ?_⟩
    · rw [best_move_for, hemp]
      simpa using h1
    · have hchild := countNone_child Player.X h2
      have hcn : countNone b ≤ b.length := countNone_le_length b
      rw [gval_O, List.length_set,
        minimaxUnpruned_fuel_congr (b.length + 1) b.length (b.set m (some Player.X))
          Player.O false (by omega) (by omega),
        gval_X, ← hsc]
      exact h3

lemma engine_step_O (seed : Nat) (b : Board) (h9 : b.length = 9)
    (hg : game_over b = false) :
    ∃ m, best_move_for seed b Player.O = some m ∧ m ∈ available_moves b ∧
      gval (b.set m (some Player.O)) Player.X = gval b Player.O := by
  obtain ⟨hw, hf⟩ := game_over_false hg
  cases hemp : b.all (fun v => v.isNone) with
  | true =>
    have hb : b = new_board := all_none_eq_new h9 hemp
    subst hb
    refine ⟨choice useful_opens seed, ?_, ?_, ?_⟩
    · rw [best_move_for, hemp, if_pos rfl]
    · rw [mem_available_moves]
      exact ⟨by rw [h9]; exact (choice_useful_mem seed).2, cell_new_board _⟩
    · rw [val_openO_zero _ (choice_useful_mem seed).1, gval_empty_O]
  | false =>
    obtain ⟨hsc, m, h1, h2, h3⟩ := minimaxF_min_exact b.length b Player.O
      (countNone_le_length b) hw hf
    refine ⟨m, ?_, h2, ?_⟩
    · rw [best_move_for, hemp]
      simpa using h1
    · have hchild := countNone_child Player.O h2
      have hcn : countNone b ≤ b.length := countNone_le_length b
      rw [gval_X, List.length_set,
        minimaxUnpruned_fuel_congr (b.length + 1) b.length (b.set m (some Player.O))
          Player.X true (by omega) (by omega),
        gval_O, ← hsc]
      exact h3

lemma playFrom_zero (strat : Player → Board → Nat) (b : Board) (p : Player) :
    playFrom strat 0 b p = b := rfl

lemma playFrom_succ_over (strat : Player → Board → Nat) (n : Nat) (b : Board)
    (p : Player) (hg : game_over b = true) :
    playFrom strat (n + 1) b p = b := by
  show (if game_over b then b
    else playFrom strat n (b.set (strat p b) (some p)) (opponent p)) = b
  rw [hg]
  rfl

lemma playFrom_succ_go (strat : Player → Board → Nat) (n : Nat) (b : Board)
    (p : Player) (hg : game_over b = false) :
    playFrom strat (n + 1) b p =
      playFrom strat n (b.set (strat p b) (some p)) (opponent p) := by
  show (if game_over b then b
    else playFrom strat n (b.set (strat p b) (some p)) (opponent p)) = _
  rw [hg]
  rfl

lemma neverLose_X (seed : Nat) (opp : Player → Board → Nat)
    (hopp : ∀ b : Board, b.length = 9 → game_over b = false →
      opp Player.O b ∈ available_moves b) (t : ℤ) :
    ∀ (n : Nat) (b : Board) (p : Player), b.length = 9 → countNone b ≤ n →
      ofInt t ≤ gval b p →
      ofInt t ≤ ofInt (outcomeScore (playFrom (engineStrat seed Player.X opp) n b p)) ∧
        game_over (playFrom (engineStrat seed Player.X opp) n b p) = true := by
  intro n
  induction n with
  | zero =>
    intro b p h9 hcn hv
    have hfull : is_board_full b = true := (is_board_full_iff_countNone b).2 (by omega)
    have hg : game_over b = true := by rw [game_over, hfull]; simp
    rw [playFrom_zero]
    refine ⟨?_, hg⟩
    rw [gval_terminal b p hg] at hv
    exact hv
  | succ n ih =>
    intro b p h9 hcn hv
    cases hgo : game_over b with
    | true =>
      rw [playFrom_succ_over _ _ _ _ hgo]
      refine ⟨?_, hgo⟩
      rw [gval_terminal b p hgo] at hv
      exact hv
    | false =>
      rw [playFrom_succ_go _ _ _ _ hgo]
      cases p with
      | X =>
        obtain ⟨m0, h1, h2, h3⟩ := engine_step_X seed b h9 hgo
        have hms : engineStrat seed Player.X opp Player.X b = m0 := by
          simp only [engineStrat, if_pos, h1]
          rfl
        rw [hms]
        have hchild := countNone_child Player.X h2
        refine ih (b.set m0 (some Player.X)) (opponent Player.X)
          (by rw [List.length_set, h9]) (by omega) ?_
        show ofInt t ≤ gval (b.set m0 (some Player.X)) Player.O
        rw [h3]
        exact hv
      | O =>
        have h2 : opp Player.O b ∈ available_moves b := hopp b h9 hgo
        have hms : engineStrat seed Player.X opp Player.O b = opp Player.O b := by
          simp only [engineStrat, if_neg]
          simp
        rw [hms]
        have hchild := countNone_child Player.O h2
        refine ih (b.set (opp Player.O b) (some Player.O)) (opponent Player.O)
          (by rw [List.length_set, h9]) (by omega) ?_
        show ofInt t ≤ gval (b.set (opp Player.O b) (some Player.O)) Player.X
        exact le_trans hv (gval_move_O_ge hgo h2)

lemma neverLose_O (seed : Nat) (opp : Player → Board → Nat)
    (hopp : ∀ b : Board, b.length = 9 → game_over b = false →
      opp Player.X b ∈ available_moves b) (t : ℤ) :
    ∀ (n : Nat) (b : Board) (p : Player), b.length = 9 → countNone b ≤ n →
      gval b p ≤ ofInt t →
      ofInt (outcomeScore (playFrom (engineStrat seed Player.O opp) n b p)) ≤ ofInt t ∧
        game_over (playFrom (engineStrat seed Player.O opp) n b p) = true := by
  intro n
  induction n with
  | zero =>
    intro b p h9 hcn hv
    have hfull : is_board_full b = true := (is_board_full_iff_countNone b).2 (by omega)
    have hg : game_over b = true := by rw [game_over, hfull]; simp
    rw [playFrom_zero]
    refine ⟨?_, hg⟩
    rw [gval_terminal b p hg] at hv
    exact hv
  | succ n ih =>
    intro b p h9 hcn hv
    cases hgo : game_over b with
    | true =>
      rw [playFrom_succ_over _ _ _ _ hgo]
      refine ⟨?_, hgo⟩
      rw [gval_terminal b p hgo] at hv
      exact hv
    | false =>
      rw [playFrom_succ_go _ _ _ _ hgo]
      cases p with
      | O =>
        obtain ⟨m0, h1, h2, h3⟩ := engine_step_O seed b h9 hgo
        have hms : engineStrat seed Player.O opp Player.O b = m0 := by
          simp only [engineStrat, if_pos, h1]
          rfl
        rw [hms]
        have hchild := countNone_child Player.O h2
        refine ih (b.set m0 (some Player.O)) (opponent Player.O)
          (by rw [List.length_set, h9]) (by omega) ?_
        show gval (b.set m0 (some Player.O)) Player.X ≤ ofInt t
        rw [h3]
        exact hv
      | X =>
        have h2 : opp Player.X b ∈ available_moves b := hopp b h9 hgo
        have hms : engineStrat seed Player.O opp Player.X b = opp Player.X b := by
          simp only [engineStrat, if_neg]
          simp
        rw [hms]
        have hchild := countNone_child Player.X h2
        refine ih (b.set (opp Player.X b) (some Player.X)) (opponent Player.X)
          (by rw [List.length_set, h9]) (by omega) ?_
        show gval (b.set (opp Player.X b) (some Player.X)) Player.O ≤ ofInt t
        exact le_trans (gval_move_X_le hgo h2) hv

lemma selfPlay_exact (seed : Nat) :
    ∀ (n : Nat) (b : Board) (p : Player), b.length = 9 → countNone b ≤ n →
      ofInt (outcomeScore (playFrom (selfStrat seed) n b p)) = gval b p ∧
        game_over (playFrom (selfStrat seed) n b p) = true := by
  intro n
  induction n with
  | zero =>
    intro b p h9 hcn
    have hfull : is_board_full b = true := (is_board_full_iff_countNone b).2 (by omega)
    have hg : game_over b = true := by rw [game_over, hfull]; simp
    rw [playFrom_zero]
    exact ⟨(gval_terminal b p hg).symm, hg⟩
  | succ n ih =>
    intro b p h9 hcn
    cases hgo : game_over b with
    | true =>
      rw [playFrom_succ_over _ _ _ _ hgo]
      exact ⟨(gval_terminal b p hgo).symm, hgo⟩
    | false =>
      rw [playFrom_succ_go _ _ _ _ hgo]
      cases p with
      | X =>
        obtain ⟨m0, h1, h2, h3⟩ := engine_step_X seed b h9 hgo
        have hms : selfStrat seed Player.X b = m0 := by
          simp only [selfStrat, h1]
          rfl
        rw [hms]
        have hchild := countNone_child Player.X h2
        obtain ⟨ha, hb⟩ := ih (b.set m0 (some Player.X)) (opponent Player.X)
          (by rw [List.length_set, h9]) (by omega)
        refine ⟨?_, hb⟩
        rw [ha]
        exact h3
      | O =>
        obtain ⟨m0, h1, h2, h3⟩ := engine_step_O seed b h9 hgo
        have hms : selfStrat seed Player.O b = m0 := by
          simp only [selfStrat, h1]
          rfl
        rw [hms]
        have hchild := countNone_child Player.O h2
        obtain ⟨ha, hb⟩ := ih (b.set m0 (some Player.O)) (opponent Player.O)
          (by rw [List.length_set, h9]) (by omega)
        refine ⟨?_, hb⟩
        rw [ha]
        exact h3

lemma oppHead_valid : ∀ (q : Player) (b : Board), b.length = 9 →
    game_over b = false → oppHead q b ∈ available_moves b := by
  intro q b h9 hg
  obtain ⟨hw, hf⟩ := game_over_false hg
  have hne : available_moves b ≠ [] := by
    intro h
    rw [available_moves_eq_nil_iff b] at h
    rw [h] at hf
    cases hf
  cases hav : available_moves b with
  | nil => exact absurd hav hne
  | cons x r => simp [oppHead, hav]

/-- C1: the engine realizes the game-theoretic value.  The returned move of
the search preserves the position value exactly for either mark; against any
opponent playing legal moves the final outcome of a game where X (resp. O)
is engine-played is at least (resp. at most) any bound on the start value
with the game driven to completion, so the engine never loses and converts
any position whose value says it wins; the empty board has value 0 for
either side to move, hence engine-X outcomes are ≥ 0 and engine-O outcomes
are ≤ 0 from the empty board; and engine-vs-engine play from the empty board
ends in a full drawn board with no winner. -/
theorem claim_C1 (seed : Nat) (opp : Player → Board → Nat)
    (hopp : ∀ (q : Player) (b : Board), b.length = 9 → game_over b = false →
      opp q b ∈ available_moves b) :
    (∀ b : Board, b.length = 9 → game_over b = false →
      ∃ m, best_move_for seed b Player.X = some m ∧ m ∈ available_moves b ∧
        gval (b.set m (some Player.X)) Player.O = gval b Player.X) ∧
    (∀ b : Board, b.length = 9 → game_over b = false →
      ∃ m, best_move_for seed b Player.O = some m ∧ m ∈ available_moves b ∧
        gval (b.set m (some Player.O)) Player.X = gval b Player.O) ∧
    (∀ (t : ℤ) (n : Nat) (b : Board) (p : Player), b.length = 9 →
      countNone b ≤ n → ofInt t ≤ gval b p →
      ofInt t ≤ ofInt (outcomeScore (playFrom (engineStrat seed Player.X opp) n b p)) ∧
        game_over (playFrom (engineStrat seed Player.X opp) n b p) = true) ∧
    (∀ (t : ℤ) (n : Nat) (b : Board) (p : Player), b.length = 9 →
      countNone b ≤ n → gval b p ≤ ofInt t →
      ofInt (outcomeScore (playFrom (engineStrat seed Player.O opp) n b p)) ≤ ofInt t ∧
        game_over (playFrom (engineStrat seed Player.O opp) n b p) = true) ∧
    gval new_board Player.X = ofInt 0 ∧
    gval new_board Player.O = ofInt 0 ∧
    (0 ≤ outcomeScore (playFrom (engineStrat seed Player.X opp) 9 new_board Player.X) ∧
      outcomeScore (playFrom (engineStrat seed Player.O opp) 9 new_board Player.X) ≤ 0) ∧
    (outcomeScore (playFrom (selfStrat seed) 9 new_board Player.X) = 0 ∧
      game_over (playFrom (selfStrat seed) 9 new_board Player.X) = true ∧
      check_winner (playFrom (selfStrat seed) 9 new_board Player.X) = none ∧
      is_board_full (playFrom (selfStrat seed) 9 new_board Player.X) = true) := by
  have hX := engine_step_X seed
  have hO := engine_step_O seed
  have hnlX := neverLose_X seed opp (fun b h9 hg => hopp Player.O b h9 hg)
  have hnlO := neverLose_O seed opp (fun b h9 hg => hopp Player.X b h9 hg)
  have hlen : (new_board : Board).length = 9 := by decide
  have hcn9 : countNone new_board ≤ 9 := by decide
  have hfromX : 0 ≤ outcomeScore (playFrom (engineStrat seed Player.X opp) 9 new_board Player.X) := by
    have := (hnlX 0 9 new_board Player.X hlen hcn9 (by rw [gval_empty_X])).1
    exact ofInt_le_ofInt.1 this
  have hfromO : outcomeScore (playFrom (engineStrat seed Player.O opp) 9 new_board Player.X) ≤ 0 := by
    have := (hnlO 0 9 new_board Player.X hlen hcn9 (by rw [gval_empty_X])).1
    exact ofInt_le_ofInt.1 this
  obtain ⟨hsp, hspo⟩ := selfPlay_exact seed 9 new_board Player.X hlen hcn9
  have hsp0 : outcomeScore (playFrom (selfStrat seed) 9 new_board Player.X) = 0 := by
    rw [gval_empty_X] at hsp
    exact ofInt_inj.1 hsp
  have hwn : check_winner (playFrom (selfStrat seed) 9 new_board Player.X) = none := by
    cases hcw : check_winner (playFrom (selfStrat seed) 9 new_board Player.X) with
    | none => rfl
    | some w =>
      cases w with
      | X => simp [outcomeScore, hcw] at hsp0
      | O => simp [outcomeScore, hcw] at hsp0
  have hfull : is_board_full (playFrom (selfStrat seed) 9 new_board Player.X) = true := by
    rw [game_over, hwn] at hspo
    simpa using hspo
  exact ⟨fun b h9 hg => hX b h9 hg, fun b h9 hg => hO b h9 hg,
    fun t n b p h9 hcn hv => hnlX t n b p h9 hcn hv,
    fun t n b p h9 hcn hv => hnlO t n b p h9 hcn hv,
    gval_empty_X, gval_empty_O, ⟨hfromX, hfromO⟩, hsp0, hspo, hwn, hfull⟩

/-- Witness for C1: the concrete opponent strategy playing the first
available move satisfies the legality hypothesis, and the engine-vs-engine
self-play game from the empty board ends in a draw. -/
theorem claim_C1_witness :
    (∀ (q : Player) (b : Board), b.length = 9 → game_over b = false →
      oppHead q b ∈ available_moves b) ∧
    outcomeScore (playFrom (selfStrat 0) 9 new_board Player.X) = 0 ∧
    check_winner (playFrom (selfStrat 0) 9 new_board Player.X) = none :=
  ⟨oppHead_valid, (claim_C1 0 oppHead oppHead_valid).2.2.2.2.2.2.2.1,
    (claim_C1 0 oppHead oppHead_valid).2.2.2.2.2.2.2.2.2.1⟩

end TTT
